import Mathlib

/-!
# Verification of the mobile_rag_engine retrieval core

A shallow embedding, in Lean 4, of the parts of the `mobile_rag_engine`
Rust repository that the specification's testable properties talk about:

* the BM25 inverted index (`rust/src/api/bm25_search.rs`),
* the hybrid RRF retrieval path (`rust/src/api/hybrid_search.rs`),
* the source store and its linear scan (`rust/src/api/source_rag.rs`),
* the compression utility (`rust/src/api/compression_utils.rs`),
* the Markdown structure-aware chunker (`rust/src/api/semantic_chunker.rs`).

Modelling conventions:

* Rust `f32` / `f64` arithmetic is modelled over `ℚ`; transcendental or
  irrational operations (`ln`, `sqrt`, the IEEE-754 bit decoding of a 4-byte
  group) are uninterpreted function parameters, since no claim below depends
  on their values.
* Rust `u64` wrapping arithmetic is `Nat` with explicit `% 2 ^ 64`.
* Rust strings are `List Char`; byte positions use the UTF-8 size of each
  character (`Char.utf8Size`).  Unicode case folding and the Unicode
  alphanumeric class are external tables; where a definition needs them they
  are parameters, with ASCII instantiations used on concrete inputs.
* Code that can panic is modelled with `Option`: `none` is a panic reaching
  the caller.
* Rust `HashMap` iteration order is unspecified; where the code's result
  depends on it (collecting BM25 scores before sorting) the model takes the
  enumeration as an explicit parameter constrained to be a permutation.
* `Vec::sort_by` is a stable sort; it is modelled by a stable insertion
  sort `sortS`.
-/

namespace MobileRag

/-- Strings of the Rust source are modelled as lists of characters. -/
abbrev Str := List Char

/-! ## Generic list machinery

`sortS lt` models Rust's stable `sort_by`: `lt a b = true` means the
comparator orders `a` strictly before `b`; elements that compare equal keep
their input order. -/

/-- Stable insertion of `x`: `x` moves past every element strictly before it
and stops in front of the first element not strictly before it. -/
def insertS (lt : α → α → Bool) (x : α) : List α → List α
  | [] => [x]
  | y :: ys => if lt y x then y :: insertS lt x ys else x :: y :: ys

/-- Stable sort modelling Rust `Vec::sort_by` with comparator `lt`. -/
def sortS (lt : α → α → Bool) : List α → List α :=
  List.foldr (insertS lt) []

/-- Sorted insertion of an `Int` that skips exact duplicates. -/
def insertUniq (x : Int) : List Int → List Int
  | [] => [x]
  | y :: ys =>
    if x < y then x :: y :: ys
    else if x = y then y :: ys
    else y :: insertUniq x ys

/-- Model of Rust's `ids.sort(); ids.dedup();` on a list of `i64`: the
strictly increasing enumeration of the distinct elements. -/
def sortUniq (l : List Int) : List Int :=
  List.foldr insertUniq [] l

/-! ## Association lists modelling `std::collections::HashMap`

Keys are kept in first-insertion order and are duplicate free; every claim
proved below is insensitive to key order except the BM25 tie-order claim,
where the iteration order is taken as an explicit permutation parameter. -/

/-- `HashMap::get`. -/
def alistLookup [DecidableEq κ] (l : List (κ × β)) (k : κ) : Option β :=
  (l.find? (fun p => p.1 = k)).map (·.2)

/-- `HashMap::entry(k).or_insert(dflt)` followed by an in-place update `f`
(covers `*e += 1` on counters and `*e += s` on accumulated scores). -/
def bumpWith [DecidableEq κ] (f : β → β) (dflt : β) (l : List (κ × β)) (k : κ) :
    List (κ × β) :=
  match l with
  | [] => [(k, f dflt)]
  | (k', v) :: rest =>
    if k' = k then (k', f v) :: rest else (k', v) :: bumpWith f dflt rest k

/-- The UTF-8 byte length of a Rust string slice (`str::len`). -/
def utf8Length (s : Str) : Nat := (s.map Char.utf8Size).sum

/-! ## BM25 inverted index — `rust/src/api/bm25_search.rs` -/

/-- External Unicode tables used by `tokenize_for_bm25`, supplied by the Rust
standard library and hence parameters of the model: `char::is_alphanumeric`
and the per-character expansion done by `str::to_lowercase`. -/
structure Bm25Tok where
  isAlphanumeric : Char → Bool
  lowerChar : Char → Str

/-- ASCII instantiation of the Unicode tables, used on concrete inputs whose
characters are ASCII (where it agrees with Rust). -/
def asciiTok : Bm25Tok :=
  { isAlphanumeric := fun c => c.isAlphanum
    lowerChar := fun c => [c.toLower] }

/-- Rust `str::split(pred)`: splits at every separator character, keeping
empty fragments between adjacent separators and at the ends. -/
def splitOnPred (sep : Char → Bool) : Str → List Str
  | [] => [[]]
  | c :: rest =>
    let r := splitOnPred sep rest
    if sep c then [] :: r
    else
      match r with
      | [] => [[c]]
      | t :: ts => (c :: t) :: ts

/-- `tokenize_for_bm25`: lowercase, split on any character that is neither
alphanumeric nor underscore, keep fragments of UTF-8 byte length ≥ 2. -/
def tokenizeForBm25 (tk : Bm25Tok) (text : Str) : List Str :=
  (splitOnPred (fun c => !(tk.isAlphanumeric c || c == '_'))
      (text.flatMap tk.lowerChar)).filter (fun s => decide (2 ≤ utf8Length s))

/-- `DocMeta`: token length and id of an indexed document. -/
structure DocMeta where
  length : Nat
  id : Int
deriving DecidableEq

/-- `InvertedIndex`: postings, per-document metadata and global statistics.
`f64` statistics are exact rationals. -/
structure InvertedIndex where
  postings : List (Str × List (Int × Nat))
  doc_meta : List (Int × DocMeta)
  doc_count : Nat
  avg_doc_length : ℚ
  total_tokens : Nat
deriving DecidableEq

/-- `InvertedIndex::new`. -/
def InvertedIndex.new : InvertedIndex :=
  { postings := [], doc_meta := [], doc_count := 0, avg_doc_length := 0,
    total_tokens := 0 }

/-- Term-frequency map of a token list (`HashMap` built with
`*term_freqs.entry(token).or_insert(0) += 1`). -/
def countFreqs (tokens : List Str) : List (Str × Nat) :=
  tokens.foldl (bumpWith (· + 1) 0) []

/-- `postings.entry(term).or_insert_with(Vec::new).push((doc_id, freq))`. -/
def postingsPush (ps : List (Str × List (Int × Nat))) (term : Str)
    (e : Int × Nat) : List (Str × List (Int × Nat)) :=
  bumpWith (fun l => l ++ [e]) [] ps term

/-- `InvertedIndex::add_document`: skip ids already indexed and contents that
tokenize to nothing; otherwise extend postings and metadata and refresh the
statistics. -/
def InvertedIndex.addDocument (tk : Bm25Tok) (idx : InvertedIndex)
    (docId : Int) (content : Str) : InvertedIndex :=
  if (idx.doc_meta.find? (fun p => p.1 = docId)).isSome then idx
  else
    let tokens := tokenizeForBm25 tk content
    let docLength := tokens.length
    if docLength = 0 then idx
    else
      let termFreqs := countFreqs tokens
      let postings :=
        termFreqs.foldl (fun ps tf => postingsPush ps tf.1 (docId, tf.2))
          idx.postings
      let docCount := idx.doc_count + 1
      let totalTokens := idx.total_tokens + docLength
      { postings := postings
        doc_meta := idx.doc_meta ++ [(docId, ⟨docLength, docId⟩)]
        doc_count := docCount
        total_tokens := totalTokens
        avg_doc_length := (totalTokens : ℚ) / (docCount : ℚ) }

/-- `InvertedIndex::remove_document`: drop the metadata entry, update the
statistics with saturating subtraction, filter the id out of every postings
list and prune empty lists. -/
def InvertedIndex.removeDocument (idx : InvertedIndex) (docId : Int) :
    InvertedIndex :=
  match (idx.doc_meta.find? (fun p => p.1 = docId)).map (·.2) with
  | none => idx
  | some meta =>
    let docCount := idx.doc_count - 1
    let totalTokens := idx.total_tokens - meta.length
    { postings :=
        (idx.postings.map
            (fun p => (p.1, p.2.filter (fun e => !(e.1 = docId : Bool))))).filter
          (fun p => !p.2.isEmpty)
      doc_meta := idx.doc_meta.filter (fun p => !(p.1 = docId : Bool))
      doc_count := docCount
      total_tokens := totalTokens
      avg_doc_length :=
        if 0 < docCount then (totalTokens : ℚ) / (docCount : ℚ) else 0 }

/-- `InvertedIndex::clear`. -/
def InvertedIndex.clear (_idx : InvertedIndex) : InvertedIndex :=
  InvertedIndex.new

/-- The BM25 `k1` parameter. -/
def bm25K1 : ℚ := 12 / 10

/-- The BM25 `b` parameter. -/
def bm25B : ℚ := 3 / 4

/-- Score accumulation of `InvertedIndex::search`: the `scores` hash map in
first-touch order.  `lnq` is the uninterpreted model of `f64::ln`. -/
def InvertedIndex.searchScores (tk : Bm25Tok) (lnq : ℚ → ℚ)
    (idx : InvertedIndex) (query : Str) : List (Int × ℚ) :=
  (tokenizeForBm25 tk query).foldl
    (fun scores token =>
      match alistLookup idx.postings token with
      | none => scores
      | some ps =>
        let n : ℚ := ps.length
        let idf := lnq (((idx.doc_count : ℚ) - n + 1 / 2) / (n + 1 / 2) + 1)
        ps.foldl
          (fun scores e =>
            match alistLookup idx.doc_meta e.1 with
            | none => scores
            | some meta =>
              let tfF : ℚ := e.2
              let docLen : ℚ := meta.length
              let tfComponent :=
                tfF * (bm25K1 + 1) /
                  (tfF + bm25K1 *
                    (1 - bm25B + bm25B * (docLen / idx.avg_doc_length)))
              bumpWith (· + idf * tfComponent) 0 scores e.1)
          scores)
    []

/-- `InvertedIndex::search`.  `enum` is the iteration order in which
`scores.into_iter().collect()` enumerates the hash map (an arbitrary
permutation in Rust); the collected list is stably sorted by score descending
and truncated to `top_k`. -/
def InvertedIndex.searchWith (tk : Bm25Tok) (lnq : ℚ → ℚ)
    (enum : List (Int × ℚ) → List (Int × ℚ)) (idx : InvertedIndex)
    (query : Str) (topK : Nat) : List (Int × ℚ) :=
  if idx.doc_count = 0 then []
  else if (tokenizeForBm25 tk query).isEmpty then []
  else
    let results := enum (idx.searchScores tk lnq query)
    (sortS (fun a b => decide (b.2 < a.2)) results).take topK

/-- The documents matching at least one query term (present in a postings
list of a query token and carrying metadata), without duplicates. -/
def InvertedIndex.matchingDocIds (tk : Bm25Tok) (idx : InvertedIndex)
    (query : Str) : List Int :=
  sortUniq
    (((tokenizeForBm25 tk query).foldr
        (fun t acc =>
          (match alistLookup idx.postings t with
            | none => []
            | some ps => ps.map (·.1)) ++ acc)
        []).filter (fun d => (alistLookup idx.doc_meta d).isSome))

/-- One public BM25 operation (`bm25_add_document`, `bm25_add_documents`,
`bm25_remove_document`, `bm25_clear_index`). -/
inductive Bm25Op where
  | add (docId : Int) (content : Str)
  | addMany (docs : List (Int × Str))
  | remove (docId : Int)
  | clear

/-- Apply one operation to the index. -/
def Bm25Op.apply (tk : Bm25Tok) (idx : InvertedIndex) : Bm25Op → InvertedIndex
  | .add docId content => idx.addDocument tk docId content
  | .addMany docs =>
    docs.foldl (fun i d => i.addDocument tk d.1 d.2) idx
  | .remove docId => idx.removeDocument docId
  | .clear => idx.clear

/-- Apply a sequence of operations to the empty index. -/
def applyBm25Ops (tk : Bm25Tok) (ops : List Bm25Op) : InvertedIndex :=
  ops.foldl (Bm25Op.apply tk) InvertedIndex.new

/-- The C8 invariant: `doc_count` counts `doc_meta`, `total_tokens` sums the
stored lengths, `avg_doc_length` is their exact quotient (`0` when empty),
every postings entry refers to a documented id, and `doc_meta` keys are
duplicate-free. -/
def Bm25Inv (idx : InvertedIndex) : Prop :=
  idx.doc_count = idx.doc_meta.length ∧
  idx.total_tokens = (idx.doc_meta.map (fun p => p.2.length)).sum ∧
  idx.avg_doc_length =
    (if idx.doc_count = 0 then 0
      else (idx.total_tokens : ℚ) / (idx.doc_count : ℚ)) ∧
  (∀ p ∈ idx.postings, ∀ e ∈ p.2, ∃ q ∈ idx.doc_meta, q.1 = e.1) ∧
  (idx.doc_meta.map (·.1)).Nodup

/-- The parenthetical characterization used by claim C10: every maximal run
of alphanumeric-or-underscore characters is shorter than 2 characters, i.e.
no two adjacent characters are both token characters. -/
def allAlnumRunsShort (isAln : Char → Bool) (s : Str) : Bool :=
  !((s.zip s.tail).any
      (fun p => (isAln p.1 || p.1 == '_') && (isAln p.2 || p.2 == '_')))

/-- Unicode-table instantiation extended with the letter `é`, which Rust's
`char::is_alphanumeric` accepts and whose Unicode lowercase is itself; it
occupies 2 bytes in UTF-8. -/
def extendedTok : Bm25Tok :=
  { isAlphanumeric := fun c => c.isAlphanum || c == 'é'
    lowerChar := fun c => [c.toLower] }

/-- Two-document index whose documents have identical content, producing an
exact BM25 score tie on the query `"hello"`. -/
def tieIndex : InvertedIndex :=
  (InvertedIndex.new.addDocument asciiTok 1 ("hello".toList)).addDocument
    asciiTok 2 ("hello".toList)

/-! ## Compression utility — `rust/src/api/compression_utils.rs` -/

/-- ASCII core of Rust `char::is_whitespace` (the exotic Unicode white-space
code points, which no claim exercises, are elided). -/
def isRustWhitespace (c : Char) : Bool :=
  c == ' ' || c == '\t' || c == '\n' || c == '\r' ||
    c == '\x0b' || c == '\x0c'

/-- Rust `str::trim`. -/
def rustTrim (s : Str) : Str :=
  ((s.dropWhile isRustWhitespace).reverse.dropWhile isRustWhitespace).reverse

/-- Character-wise model of Rust `str::to_lowercase` (exact on characters
whose Unicode lowercase is themselves or their ASCII lowercase). -/
def rustToLowercase (s : Str) : Str := s.map Char.toLower

/-- Rust `str::split_whitespace`. -/
def splitWhitespace (s : Str) : List Str :=
  (splitOnPred isRustWhitespace s).filter (fun t => !t.isEmpty)

/-- Join a list of strings with a single separator character
(`Vec::join(" ")` and `Vec::join("\n")`). -/
def joinSep (sep : Char) : List Str → Str
  | [] => []
  | [s] => s
  | s :: rest => s ++ sep :: joinSep sep rest

/-- The sentence-terminal characters of the compression utility. -/
def isTerminalPunct (c : Char) : Bool :=
  c == '.' || c == '?' || c == '!' || c == '。'

/-- `split_sentences`: walk the characters, closing a sentence at each
terminal character (kept if its trimmed UTF-8 byte length exceeds 1), and
keep a trailing non-empty remainder. -/
def split_sentences (text : Str) : List Str :=
  if text.isEmpty then []
  else
    let st := text.foldl
      (fun (st : List Str × Str) ch =>
        let current := st.2 ++ [ch]
        if isTerminalPunct ch then
          let trimmed := rustTrim current
          (if !trimmed.isEmpty && decide (1 < utf8Length trimmed) then
              st.1 ++ [trimmed]
            else st.1, [])
        else (st.1, current))
      ([], [])
    let trimmed := rustTrim st.2
    if !trimmed.isEmpty then st.1 ++ [trimmed] else st.1

/-- The UTF-8 bytes of one character. -/
def utf8Bytes (c : Char) : List Nat :=
  let n := c.toNat
  if n < 0x80 then [n]
  else if n < 0x800 then
    [0xC0 ||| (n >>> 6), 0x80 ||| (n &&& 0x3F)]
  else if n < 0x10000 then
    [0xE0 ||| (n >>> 12), 0x80 ||| ((n >>> 6) &&& 0x3F), 0x80 ||| (n &&& 0x3F)]
  else
    [0xF0 ||| (n >>> 18), 0x80 ||| ((n >>> 12) &&& 0x3F),
      0x80 ||| ((n >>> 6) &&& 0x3F), 0x80 ||| (n &&& 0x3F)]

/-- `sentence_hash`: normalize (lowercase, collapse whitespace) and fold the
64-bit FNV-1a hash over the UTF-8 bytes. -/
def sentence_hash (sentence : Str) : Nat :=
  let normalized := joinSep ' ' (splitWhitespace (rustToLowercase sentence))
  (normalized.flatMap utf8Bytes).foldl
    (fun hash byte => ((hash ^^^ byte) * 0x100000001b3) % 2 ^ 64)
    0xcbf29ce484222325

/-- `CompressionOptions`. -/
structure CompressionOptions where
  remove_stopwords : Bool
  remove_duplicates : Bool
  language : Str
  level : Int

/-- `CompressedText` (`i32` counters are modelled as `Nat`: every one of
them is a character count or a difference of a longer and a shorter count,
and the `f64` ratio is an exact rational). -/
structure CompressedText where
  text : Str
  original_chars : Nat
  compressed_chars : Nat
  ratio : ℚ
  sentences_removed : Nat
  chars_saved_stopwords : Nat
  chars_saved_truncation : Nat
deriving DecidableEq

/-- The duplicate-removal loop of `compress_text`: keep a sentence iff its
FNV-1a hash is unseen. -/
def dedupByHash (sentences : List Str) : List Str :=
  (sentences.foldl
    (fun (st : List Nat × List Str) sentence =>
      let hash := sentence_hash sentence
      if st.1.contains hash then st
      else (st.1 ++ [hash], st.2 ++ [sentence]))
    ([], [])).2

/-- `str::rfind(pred)`: byte index of the start of the last matching
character. -/
def rfindBytePos (p : Char → Bool) (s : Str) : Option Nat :=
  (s.foldl
    (fun (st : Nat × Option Nat) c =>
      (st.1 + c.utf8Size, if p c then some st.1 else st.2))
    (0, none)).2

/-- Rust string slicing `&s[..stop]` by byte index: `none` models the
"byte index is not a char boundary" panic. -/
def byteSliceTo : Str → Nat → Option Str
  | _, 0 => some []
  | [], _ + 1 => none
  | c :: rest, stop + 1 =>
    if h : c.utf8Size ≤ stop + 1 then
      (byteSliceTo rest (stop + 1 - c.utf8Size)).map (c :: ·)
    else none

/-- `compress_text`: sentence split, optional hash dedup, rejoin with single
spaces, then optional truncation to `max_chars` characters followed by a
backtrack to the last terminal punctuation — the backtrack slices at
`rfind` byte position + 1, so `none` is the char-boundary panic. -/
def compress_text (text : Str) (maxChars : Int)
    (options : CompressionOptions) : Option CompressedText :=
  let originalChars := text.length
  if text.isEmpty then
    some { text := [], original_chars := 0, compressed_chars := 0,
           ratio := 1, sentences_removed := 0, chars_saved_stopwords := 0,
           chars_saved_truncation := 0 }
  else
    let sentences := split_sentences text
    let originalSentenceCount := sentences.length
    let uniqueSentences :=
      if options.remove_duplicates then dedupByHash sentences else sentences
    let result := joinSep ' ' uniqueSentences
    let charsBeforeTruncation := result.length
    let truncated : Option Str :=
      if 0 < maxChars ∧ maxChars.toNat < result.length then
        let cut := result.take maxChars.toNat
        match rfindBytePos isTerminalPunct cut with
        | some pos => byteSliceTo cut (pos + 1)
        | none => some cut
      else some result
    truncated.map fun res =>
      { text := res
        original_chars := originalChars
        compressed_chars := res.length
        ratio :=
          if 0 < originalChars then (res.length : ℚ) / (originalChars : ℚ)
          else 1
        sentences_removed := originalSentenceCount - uniqueSentences.length
        chars_saved_stopwords := 0
        chars_saved_truncation := charsBeforeTruncation - res.length }

/-! ## Source store — `rust/src/api/source_rag.rs` -/

/-- A row of the `sources` table. -/
structure SourceRow where
  id : Int
  content : Str
  content_hash : Str
  metadata : Option Str
deriving DecidableEq

/-- A row of the `chunks` table (the embedding BLOB is a byte list; the
`chunk_type` column has a non-null default). -/
structure ChunkRow where
  id : Int
  source_id : Int
  chunk_index : Nat
  content : Str
  chunk_type : Str
  embedding : List Nat
deriving DecidableEq

/-- A row of the legacy flat `docs` table. -/
structure DocRow where
  id : Int
  content : Str
deriving DecidableEq

/-- The embedded store state visible to the retrieval paths. -/
structure Db where
  sources : List SourceRow
  chunks : List ChunkRow
  docs : List DocRow
deriving DecidableEq

/-- `AddSourceResult`. -/
structure AddSourceResult where
  source_id : Int
  is_duplicate : Bool
  chunk_count : Int
  message : Str
deriving DecidableEq

/-- SQLite's fresh `INTEGER PRIMARY KEY` for an insert: one more than the
largest existing row id (`last_insert_rowid`). -/
def nextRowId (sources : List SourceRow) : Int :=
  (sources.foldl (fun m r => max m r.id) 0) + 1

/-- `add_source`: SHA-256 the content (`hash_content` is an uninterpreted
parameter — the hash lives in the external `sha2` crate — and only its
determinism matters), return the existing row on a hash hit, insert
otherwise. -/
def add_source (hash_content : Str → Str) (sources : List SourceRow)
    (content : Str) (metadata : Option Str) :
    List SourceRow × AddSourceResult :=
  let contentHash := hash_content content
  match (sources.find? (fun r => r.content_hash = contentHash)).map (·.id)
    with
  | some id =>
    (sources,
      { source_id := id, is_duplicate := true, chunk_count := 0,
        message := ("Source already exists (id=".toList ++
          (toString id).toList ++ [')']) })
  | none =>
    let id := nextRowId sources
    (sources ++
      [{ id := id
         content := content
         content_hash := contentHash
         metadata := metadata }],
      { source_id := id, is_duplicate := false, chunk_count := 0,
        message := "Source created".toList })

/-- `embedding_blob.chunks(4).map(|c| f32::from_ne_bytes(c.try_into()
.unwrap()))`: groups of 4 bytes decoded by the uninterpreted `f32dec`;
a partial tail makes `try_into` fail and `unwrap` panic (`none`). -/
def decodeEmbeddingBlob (f32dec : Nat → Nat → Nat → Nat → ℚ) :
    List Nat → Option (List ℚ)
  | [] => some []
  | b0 :: b1 :: b2 :: b3 :: rest =>
    (decodeEmbeddingBlob f32dec rest).map (f32dec b0 b1 b2 b3 :: ·)
  | _ => none

/-- Σ xᵢ² of an embedding (the norm under the uninterpreted `sqrtq`). -/
def sumSquares (v : List ℚ) : ℚ := (v.map (fun x => x * x)).sum

/-- `ndarray` dot product. -/
def dotProduct (a b : List ℚ) : ℚ := (List.zipWith (· * ·) a b).sum

/-- `ChunkSearchResult`. -/
structure ChunkSearchResult where
  chunk_id : Int
  source_id : Int
  chunk_index : Nat
  content : Str
  chunk_type : Str
  similarity : ℚ
  metadata : Option Str
deriving DecidableEq

/-- `search_chunks_linear`: scan every chunk row, decode the BLOB (a panic
propagates), silently skip rows whose decoded dimension differs from the
query, score by cosine similarity, sort descending, keep `top_k`. -/
def search_chunks_linear (sqrtq : ℚ → ℚ)
    (f32dec : Nat → Nat → Nat → Nat → ℚ) (db : Db)
    (queryEmbedding : List ℚ) (topK : Nat) :
    Option (List ChunkSearchResult) :=
  let queryNorm := sqrtq (sumSquares queryEmbedding)
  let candidates : Option (List ChunkSearchResult) :=
    db.chunks.foldl
      (fun acc row =>
        acc.bind fun cs =>
          (decodeEmbeddingBlob f32dec row.embedding).map fun embedding =>
            if embedding.length = queryEmbedding.length then
              let targetNorm := sqrtq (sumSquares embedding)
              let dotProd := dotProduct queryEmbedding embedding
              let similarity :=
                if queryNorm = 0 ∨ targetNorm = 0 then 0
                else dotProd / (queryNorm * targetNorm)
              cs ++ [{ chunk_id := row.id, source_id := row.source_id,
                       chunk_index := row.chunk_index,
                       content := row.content,
                       chunk_type := row.chunk_type,
                       similarity := similarity,
                       metadata :=
                         (db.sources.find?
                             (fun s => s.id = row.source_id)).bind
                           (·.metadata) }]
            else cs)
      (some [])
  candidates.map fun cs =>
    (sortS (fun a b => decide (b.similarity < a.similarity)) cs).take topK

/-! ## Hybrid retriever — `rust/src/api/hybrid_search.rs`

The two global candidate generators (the HNSW worker and the global BM25
worker) are separate singleton indices whose results enter `search_hybrid`
as ranked lists; the model takes those lists as inputs (`vecGlobal`,
`bmGlobal`), which also covers the degraded modes where a failed worker is
replaced by an empty list.  `likeFn` is the SQL `LIKE` matcher (`NULL`
metadata never matches, per SQL three-valued logic). -/

/-- `HnswSearchResult` (`f32` distance as an exact rational). -/
structure HnswSearchResult where
  id : Int
  distance : ℚ
deriving DecidableEq

/-- `Bm25SearchResult`. -/
structure Bm25SearchResult where
  doc_id : Int
  score : ℚ
deriving DecidableEq

/-- `SearchFilter`. -/
structure SearchFilter where
  source_ids : Option (List Int)
  metadata_like : Option Str

/-- `RrfConfig`. -/
structure RrfConfig where
  k : Nat
  vector_weight : ℚ
  bm25_weight : ℚ

/-- `RrfConfig::default()`: `k = 60`, both weights `0.5`. -/
def RrfConfig.default : RrfConfig :=
  { k := 60, vector_weight := 1 / 2, bm25_weight := 1 / 2 }

/-- `HybridSearchResult` (`u32` ranks as `Nat`; `0` is the sentinel). -/
structure HybridSearchResult where
  doc_id : Int
  content : Str
  score : ℚ
  vector_rank : Nat
  bm25_rank : Nat
  source_id : Int
  metadata : Option Str
  chunk_index : Nat
deriving DecidableEq

/-- `rrf_score(rank, k) = 1 / (k + rank)`. -/
def rrf_score (rank : Nat) (k : Nat) : ℚ := 1 / ((k : ℚ) + (rank : ℚ))

/-- `HashMap::insert` (overwrite an existing key in place, else append). -/
def alistInsert [DecidableEq κ] (l : List (κ × β)) (k : κ) (v : β) :
    List (κ × β) :=
  bumpWith (fun _ => v) v l k

/-- The local accumulators of the exact-scan loop of `search_hybrid`
(Path B, active source filter). -/
structure ScopedScan where
  vector_results : List HnswSearchResult
  scoped_doc_count : Nat
  scoped_total_doc_length : Nat
  scoped_doc_lengths : List (Int × Nat)
  scoped_doc_freqs : List (Str × Nat)
  scoped_term_freqs : List (Int × List (Str × Nat))

/-- Initial exact-scan state. -/
def ScopedScan.init : ScopedScan :=
  { vector_results := [], scoped_doc_count := 0,
    scoped_total_doc_length := 0, scoped_doc_lengths := [],
    scoped_doc_freqs := [], scoped_term_freqs := [] }

/-- Term frequencies of a scoped document, retaining query tokens only. -/
def countQueryFreqs (queryTokenSet : List Str) (docTokens : List Str) :
    List (Str × Nat) :=
  docTokens.foldl
    (fun m token =>
      if queryTokenSet.contains token then bumpWith (· + 1) 0 m token else m)
    []

/-- One row of the exact scan: decode the BLOB (`unwrap` panic on a partial
tail is `none`), push a cosine-distance candidate when the dimension
matches, and accumulate the scoped BM25 statistics. -/
def scopedScanStep (tk : Bm25Tok) (sqrtq : ℚ → ℚ)
    (f32dec : Nat → Nat → Nat → Nat → ℚ) (queryEmbedding : List ℚ)
    (queryTokens : List Str) (st : ScopedScan) (row : ChunkRow) :
    Option ScopedScan :=
  (decodeEmbeddingBlob f32dec row.embedding).map fun embedding =>
    let st1 :=
      if embedding.length = queryEmbedding.length then
        let queryNorm := sqrtq (sumSquares queryEmbedding)
        let targetNorm := sqrtq (sumSquares embedding)
        let dot := dotProduct queryEmbedding embedding
        let sim :=
          if queryNorm = 0 ∨ targetNorm = 0 then 0
          else dot / (queryNorm * targetNorm)
        { st with
            vector_results :=
              st.vector_results ++ [{ id := row.id, distance := 1 - sim }] }
      else st
    if !queryTokens.isEmpty then
      let docTokens := tokenizeForBm25 tk row.content
      let docLength := docTokens.length
      if 0 < docLength then
        let termFreqs := countQueryFreqs queryTokens docTokens
        { st1 with
            scoped_doc_count := st1.scoped_doc_count + 1
            scoped_total_doc_length :=
              st1.scoped_total_doc_length + docLength
            scoped_doc_lengths :=
              alistInsert st1.scoped_doc_lengths row.id docLength
            scoped_doc_freqs :=
              termFreqs.foldl (fun m tf => bumpWith (· + 1) 0 m tf.1)
                st1.scoped_doc_freqs
            scoped_term_freqs :=
              alistInsert st1.scoped_term_freqs row.id termFreqs }
      else st1
    else st1

/-- The whole exact scan over the scoped rows. -/
def scopedScan (tk : Bm25Tok) (sqrtq : ℚ → ℚ)
    (f32dec : Nat → Nat → Nat → Nat → ℚ) (queryEmbedding : List ℚ)
    (queryTokens : List Str) (rows : List ChunkRow) : Option ScopedScan :=
  rows.foldl
    (fun acc row =>
      acc.bind fun st =>
        scopedScanStep tk sqrtq f32dec queryEmbedding queryTokens st row)
    (some ScopedScan.init)

/-- Scoped BM25 scoring over the accumulated statistics (iterated in the
model's canonical first-touch order; no claim depends on this hash-map
order).  `avgDocLength` is computed once by the caller under the
`scoped_doc_count > 0` guard. -/
def scopedBm25Scores (lnq : ℚ → ℚ) (queryTokens : List Str)
    (avgDocLength : ℚ) (st : ScopedScan) : List Bm25SearchResult :=
  st.scoped_term_freqs.foldl
    (fun acc p =>
      match alistLookup st.scoped_doc_lengths p.1 with
      | none => acc
      | some docLen =>
        let score :=
          queryTokens.foldl
            (fun score token =>
              match (alistLookup p.2 token : Option Nat) with
              | none => score
              | some tf =>
                match (alistLookup st.scoped_doc_freqs token : Option Nat)
                  with
                | none => score
                | some df =>
                  let n : ℚ := df
                  let idf :=
                    lnq (((st.scoped_doc_count : ℚ) - n + 1 / 2) /
                      (n + 1 / 2) + 1)
                  let tfF : ℚ := tf
                  let docLenF : ℚ := docLen
                  let tfComponent :=
                    tfF * (bm25K1 + 1) /
                      (tfF + bm25K1 *
                        (1 - bm25B + bm25B *
                          (docLenF / max avgDocLength 1)))
                  score + idf * tfComponent)
            0
        if 0 < score then acc ++ [{ doc_id := p.1, score := score }] else acc)
    []

/-- Path A post-filtering: hydrate the union of candidate ids, keep those
matching the SQL predicate, and drop non-matching candidates from both
ranked lists preserving order. -/
def pathAFiltered (db : Db) (f : SearchFilter) (likeFn : Str → Str → Bool)
    (vecGlobal : List HnswSearchResult) (bmGlobal : List Bm25SearchResult) :
    List HnswSearchResult × List Bm25SearchResult :=
  let allDocIds :=
    sortUniq (vecGlobal.map (·.id) ++ bmGlobal.map (·.doc_id))
  if allDocIds.isEmpty then (vecGlobal, bmGlobal)
  else
    let validIds :=
      (db.chunks.filter fun c =>
        allDocIds.contains c.id &&
        (match f.source_ids with
          | some sids =>
            if sids.isEmpty then true else sids.contains c.source_id
          | none => true) &&
        (match f.metadata_like with
          | some pat =>
            match
              (db.sources.find? (fun s => s.id = c.source_id)).bind
                (·.metadata) with
            | some md => likeFn pat md
            | none => false
          | none => true)).map (·.id)
    (vecGlobal.filter (fun r => validIds.contains r.id),
      bmGlobal.filter (fun r => validIds.contains r.doc_id))

/-- The candidate lists entering RRF: Path B (scoped exact scan) when the
filter carries a non-empty `source_ids`, Path A (global lists, post-filtered
when a filter is present) otherwise.  `none` is the exact scan panicking on
a corrupt BLOB. -/
def hybridCandidates (tk : Bm25Tok) (sqrtq : ℚ → ℚ)
    (f32dec : Nat → Nat → Nat → Nat → ℚ) (lnq : ℚ → ℚ) (db : Db)
    (vecGlobal : List HnswSearchResult) (bmGlobal : List Bm25SearchResult)
    (likeFn : Str → Str → Bool) (queryText : Str) (queryEmbedding : List ℚ)
    (topK : Nat) (filter : Option SearchFilter) :
    Option (List HnswSearchResult × List Bm25SearchResult) :=
  let candidateK := topK * (if filter.isSome then 4 else 2)
  match filter with
  | none => some (vecGlobal, bmGlobal)
  | some f =>
    match f.source_ids with
    | none => some (pathAFiltered db f likeFn vecGlobal bmGlobal)
    | some sids =>
      if sids.isEmpty then some (pathAFiltered db f likeFn vecGlobal bmGlobal)
      else
        let rows := db.chunks.filter (fun c => sids.contains c.source_id)
        let queryTokens := tokenizeForBm25 tk queryText
        (scopedScan tk sqrtq f32dec queryEmbedding queryTokens rows).map
          fun st =>
            let vectorResults :=
              (sortS (fun a b => decide (a.distance < b.distance))
                st.vector_results).take candidateK
            let bm25Results :=
              if !queryTokens.isEmpty && decide (0 < st.scoped_doc_count)
                then
                let avgDocLength :=
                  (st.scoped_total_doc_length : ℚ) /
                    (st.scoped_doc_count : ℚ)
                (sortS (fun a b => decide (b.score < a.score))
                  (scopedBm25Scores lnq queryTokens avgDocLength st)).take
                  candidateK
              else []
            (vectorResults, bm25Results)

/-- The 1-based rank maps (`HashMap::insert` over `enumerate`, so a repeated
id keeps its first position in the key order but its last rank value). -/
def buildRankMap (ids : List Int) : List (Int × Nat) :=
  ids.enum.foldl (fun m p => alistInsert m p.2 (p.1 + 1)) []

/-- One fused candidate before hydration. -/
structure RrfEntry where
  doc_id : Int
  combined : ℚ
  vec_rank : Nat
  bm25_rank : Nat
deriving DecidableEq

/-- The RRF table over the sorted-deduplicated union of candidate ids:
`combined = vector_weight·rrf(vec_rank) + bm25_weight·rrf(bm25_rank)`, a
missing side contributing zero and recorded with the `0` rank sentinel. -/
def rrfEntries (config : RrfConfig) (vecRanks bmRanks : List (Int × Nat))
    (ids : List Int) : List RrfEntry :=
  ids.map fun docId =>
    let vecRank := alistLookup vecRanks docId
    let bmRank := alistLookup bmRanks docId
    let combined :=
      (match vecRank with
        | some r => config.vector_weight * rrf_score r config.k
        | none => 0) +
      (match bmRank with
        | some r => config.bm25_weight * rrf_score r config.k
        | none => 0)
    { doc_id := docId, combined := combined,
      vec_rank := vecRank.getD 0, bm25_rank := bmRank.getD 0 }

/-- Hydration from the `chunks JOIN sources` tables, yielding
`(content, source_id, metadata, chunk_index)`. -/
def chunksLookup (db : Db) (docId : Int) :
    Option (Str × Int × Option Str × Nat) :=
  (db.chunks.find? (fun c => c.id = docId)).map fun c =>
    (c.content, c.source_id,
      (db.sources.find? (fun s => s.id = c.source_id)).bind (·.metadata),
      c.chunk_index)

/-- Full hydration: when no filter is active the legacy `docs` table is
consulted first (synthesizing `source_id = id`, no metadata, index 0); ids
found nowhere are dropped.  The Rust code removes each found entry from its
content map, which is observationally the same as lookup because the fused
ids are distinct. -/
def contentLookup (db : Db) (filterIsNone : Bool) (docId : Int) :
    Option (Str × Int × Option Str × Nat) :=
  if filterIsNone then
    match db.docs.find? (fun d => d.id = docId) with
    | some d => some (d.content, d.id, none, 0)
    | none => chunksLookup db docId
  else chunksLookup db docId

/-- RRF ranking and hydration shared by both paths: build 1-based rank maps,
fuse over the sorted-deduplicated id union, stable-sort by combined score
descending, truncate to `top_k`, hydrate.  (The source's early returns on
empty id or score lists produce the same empty output.) -/
def fuseAndHydrate (db : Db) (filterIsNone : Bool) (config : RrfConfig)
    (topK : Nat) (vector_results : List HnswSearchResult)
    (bm25_results : List Bm25SearchResult) : List HybridSearchResult :=
  let vecRanks := buildRankMap (vector_results.map (·.id))
  let bmRanks := buildRankMap (bm25_results.map (·.doc_id))
  let allDocIds := sortUniq (vecRanks.map (·.1) ++ bmRanks.map (·.1))
  let rrfScores :=
    (sortS (fun a b => decide (b.combined < a.combined))
      (rrfEntries config vecRanks bmRanks allDocIds)).take topK
  rrfScores.filterMap fun e =>
    (contentLookup db filterIsNone e.doc_id).map fun r =>
      { doc_id := e.doc_id, content := r.1, score := e.combined,
        vector_rank := e.vec_rank, bm25_rank := e.bm25_rank,
        source_id := r.2.1, metadata := r.2.2.1, chunk_index := r.2.2.2 }

/-- `search_hybrid`. -/
def search_hybrid (tk : Bm25Tok) (sqrtq : ℚ → ℚ)
    (f32dec : Nat → Nat → Nat → Nat → ℚ) (lnq : ℚ → ℚ) (db : Db)
    (vecGlobal : List HnswSearchResult) (bmGlobal : List Bm25SearchResult)
    (likeFn : Str → Str → Bool) (queryText : Str) (queryEmbedding : List ℚ)
    (topK : Nat) (config : Option RrfConfig) (filter : Option SearchFilter) :
    Option (List HybridSearchResult) :=
  let cfg := config.getD RrfConfig.default
  (hybridCandidates tk sqrtq f32dec lnq db vecGlobal bmGlobal likeFn
      queryText queryEmbedding topK filter).map
    fun c => fuseAndHydrate db filter.isNone cfg topK c.1 c.2

/-- Store with two legacy docs, used to exercise the unfiltered hybrid
path on concrete inputs. -/
def hybridWitnessDb : Db where
  sources := []
  chunks := []
  docs := [{ id := 1, content := "a".toList },
           { id := 2, content := "b".toList }]

/-- The output of `search_hybrid` on `hybridWitnessDb` with vector
candidates `[1, 2]`, BM25 candidates `[2]` and `top_k = 2`. -/
def hybridWitnessOut : List HybridSearchResult :=
  [{ doc_id := 2, content := "b".toList, score := 123 / 7564,
     vector_rank := 2, bm25_rank := 1, source_id := 2, metadata := none,
     chunk_index := 0 },
   { doc_id := 1, content := "a".toList, score := 1 / 122,
     vector_rank := 1, bm25_rank := 0, source_id := 1, metadata := none,
     chunk_index := 0 }]

/-- A sample `f32::from_ne_bytes` decoder for the witness BLOBs:
little-endian `1.0f32` (`[0, 0, 128, 63]`) decodes to `1`, anything else
to `b0 / 256`. -/
def sampleF32Dec : Nat → Nat → Nat → Nat → ℚ :=
  fun b0 _ _ b3 => if b3 = 63 then 1 else (b0 : ℚ) / 256

/-- Store with two sources and three embedded chunks (ids 101, 102 under
source 1; id 201 under source 2), used to exercise the scoped
(source-filtered) hybrid path on concrete inputs.  The BLOBs encode the
2-dimensional unit vectors under `sampleF32Dec`. -/
def c2WitnessDb : Db where
  sources :=
    [{ id := 1, content := [], content_hash := "h1".toList,
       metadata := none },
     { id := 2, content := [], content_hash := "h2".toList,
       metadata := none }]
  chunks :=
    [{ id := 101, source_id := 1, chunk_index := 0,
       content := "apple cat".toList, chunk_type := "text".toList,
       embedding := [0, 0, 128, 63, 0, 0, 0, 0] },
     { id := 102, source_id := 1, chunk_index := 1,
       content := "banana".toList, chunk_type := "text".toList,
       embedding := [0, 0, 0, 0, 0, 0, 128, 63] },
     { id := 201, source_id := 2, chunk_index := 0,
       content := "apple cat".toList, chunk_type := "text".toList,
       embedding := [0, 0, 128, 63, 0, 0, 0, 0] }]
  docs := []

/-- The output of `search_hybrid` on `c2WitnessDb` filtered to source 1,
query text `"cat"`, query embedding `[0, 1]`, `top_k = 2`. -/
def c2WitnessOut : List HybridSearchResult :=
  [{ doc_id := 101, content := "apple cat".toList, score := 123 / 7564,
     vector_rank := 2, bm25_rank := 1, source_id := 1, metadata := none,
     chunk_index := 0 },
   { doc_id := 102, content := "banana".toList, score := 1 / 122,
     vector_rank := 1, bm25_rank := 0, source_id := 1, metadata := none,
     chunk_index := 1 }]

/-- Store with a single chunk whose embedding BLOB has 5 bytes — a partial
tail after one whole `f32` group. -/
def badBlobDb : Db where
  sources :=
    [{ id := 1, content := [], content_hash := "h1".toList,
       metadata := none }]
  chunks :=
    [{ id := 101, source_id := 1, chunk_index := 0,
       content := "apple".toList, chunk_type := "text".toList,
       embedding := [0, 0, 128, 63, 0] }]
  docs := []

/-! ## Markdown chunker — `rust/src/api/semantic_chunker.rs`

`markdown_chunk` splits by headers while protecting fenced code blocks and
pipe tables, then splits oversized sections.  Two external effects are
uninterpreted parameters: `uuidGen` models `Uuid::new_v4()` (one fresh
value per generation, counted), and `tsplit` models the external
`text_splitter::TextSplitter` crate (only reached when a single line or
sentence exceeds the limit).  All length comparisons in the source are
`str::len()`, i.e. UTF-8 bytes (`utf8Length`). -/

/-- The backtick character (code-fence delimiter). -/
def backquoteChar : Char := Char.ofNat 96

/-- Rust `str::lines()`: split on `'\n'`, drop the trailing empty piece of a
final newline, and strip one trailing `'\r'` per line. -/
def rustLines (s : Str) : List Str :=
  let ps := splitOnPred (fun c => c = '\n') s
  let ps1 := if ps.getLast? = some [] then ps.dropLast else ps
  ps1.map (fun l => if l.getLast? = some '\r' then l.dropLast else l)

/-- Rust `str::split_inclusive(pred)`: fragments end with the matching
character; no trailing empty fragment. -/
def splitInclusive (p : Char → Bool) : Str → List Str
  | [] => []
  | c :: rest =>
    if p c then [c] :: splitInclusive p rest
    else
      match splitInclusive p rest with
      | [] => [[c]]
      | t :: ts => (c :: t) :: ts

/-- Rust `str::split("\n\n")`: split on non-overlapping occurrences of the
two-character separator. -/
def splitDoubleNewline : Str → List Str
  | [] => [[]]
  | '\n' :: '\n' :: rest => [] :: splitDoubleNewline rest
  | c :: rest =>
    match splitDoubleNewline rest with
    | [] => [[c]]
    | t :: ts => (c :: t) :: ts

/-- `Vec::join`-style concatenation with a string separator. -/
def joinStrSep (sep : Str) : List Str → Str
  | [] => []
  | [s] => s
  | s :: rest => s ++ sep ++ joinStrSep sep rest

/-- `Section` of `split_by_headers`. -/
structure MdSection where
  header : Option (Int × Str)
  content : Str
  is_code_block : Bool
  is_table : Bool
  code_language : Option Str
deriving DecidableEq

/-- The line-loop state of `split_by_headers`. -/
structure SBHState where
  sections : List MdSection
  current_content : Str
  current_header : Option (Int × Str)
  in_code_block : Bool
  code_block_content : Str
  in_table : Bool
  table_content : Str

/-- Initial `split_by_headers` state. -/
def sbhInit : SBHState :=
  { sections := [], current_content := [], current_header := none,
    in_code_block := false, code_block_content := [], in_table := false,
    table_content := [] }

/-- One line of `split_by_headers`: code fences first (they do not end an
open table), then table lines, then headers; flushing the pending text
section `take`s the header. -/
def sbhStep (st : SBHState) (line : Str) : SBHState :=
  if "```".toList.isPrefixOf (rustTrim line) then
    if st.in_code_block then
      let cbc := st.code_block_content ++ line ++ ['\n']
      let lang :=
        match (rustLines cbc).head? with
        | none => none
        | some first =>
          let t := (rustTrim first).dropWhile (fun c => c = backquoteChar)
          if t = [] then none else some t
      { st with
          sections := st.sections ++
            [{ header := none, content := cbc, is_code_block := true,
               is_table := false, code_language := lang }],
          code_block_content := [],
          in_code_block := false }
    else
      let st1 :=
        if rustTrim st.current_content = [] then st
        else
          { st with
              sections := st.sections ++
                [{ header := st.current_header,
                   content := st.current_content, is_code_block := false,
                   is_table := false, code_language := none }],
              current_content := [],
              current_header := none }
      { st1 with
          in_code_block := true,
          code_block_content := line ++ ['\n'] }
  else if st.in_code_block then
    { st with code_block_content := st.code_block_content ++ line ++ ['\n'] }
  else
    let t := rustTrim line
    if t.head? = some '|' ∧ t.getLast? = some '|' then
      let st1 :=
        if st.in_table then st
        else
          let st2 :=
            if rustTrim st.current_content = [] then st
            else
              { st with
                  sections := st.sections ++
                    [{ header := st.current_header,
                       content := st.current_content,
                       is_code_block := false, is_table := false,
                       code_language := none }],
                  current_content := [],
                  current_header := none }
          { st2 with in_table := true }
      { st1 with table_content := st1.table_content ++ line ++ ['\n'] }
    else
      let st1 :=
        if st.in_table then
          { st with
              sections := st.sections ++
                [{ header := none, content := st.table_content,
                   is_code_block := false, is_table := true,
                   code_language := none }],
              table_content := [],
              in_table := false }
        else st
      if line.head? = some '#' then
        let st2 :=
          if rustTrim st1.current_content = [] then st1
          else
            { st1 with
                sections := st1.sections ++
                  [{ header := st1.current_header,
                     content := st1.current_content,
                     is_code_block := false, is_table := false,
                     code_language := none }],
                current_content := [],
                current_header := none }
        let level : Int := ((line.takeWhile (fun c => c = '#')).length : Int)
        let htext := rustTrim (line.dropWhile (fun c => c = '#'))
        { st2 with
            current_header := some (level, htext),
            current_content := st2.current_content ++ line ++ ['\n'] }
      else
        { st1 with current_content := st1.current_content ++ line ++ ['\n'] }

/-- `split_by_headers`: run the line loop, then flush a pending non-blank
table and the pending text section (an unclosed code fence is dropped, as in
the source). -/
def split_by_headers (text : Str) : List MdSection :=
  let st := (rustLines text).foldl sbhStep sbhInit
  let s1 :=
    if st.in_table ∧ rustTrim st.table_content ≠ [] then
      st.sections ++
        [{ header := none, content := st.table_content,
           is_code_block := false, is_table := true,
           code_language := none }]
    else st.sections
  if rustTrim st.current_content ≠ [] then
    s1 ++
      [{ header := st.current_header, content := st.current_content,
         is_code_block := false, is_table := false, code_language := none }]
  else s1

/-- `split_by_lines`: pack whole lines up to `max_chars` bytes; a single
overlong line falls back to the external splitter, trimmed and with empty
pieces dropped. -/
def split_by_lines (tsplit : Nat → Str → List Str) (text : Str)
    (maxChars : Nat) : List Str :=
  let r :=
    (rustLines text).foldl
      (fun (acc : List Str × Str) line =>
        let needed :=
          if acc.2 = [] then utf8Length line
          else utf8Length acc.2 + 1 + utf8Length line
        if needed ≤ maxChars then
          (acc.1, (if acc.2 = [] then [] else acc.2 ++ ['\n']) ++ line)
        else
          let cs := if acc.2 = [] then acc.1 else acc.1 ++ [acc.2]
          if utf8Length line ≤ maxChars then (cs, line)
          else
            (cs ++
              ((tsplit maxChars line).filterMap fun sub =>
                let t0 := rustTrim sub
                if t0 = [] then none else some t0),
             []))
      ([], [])
  if r.2 = [] then r.1 else r.1 ++ [r.2]

/-- `split_table_preserving_headers`: under 3 lines fall back to
`split_by_lines`; otherwise repeat the two header rows at the start of
every chunk (an overlong row is force-added). -/
def split_table_preserving_headers (tsplit : Nat → Str → List Str)
    (tableContent : Str) (maxChars : Nat) : List Str :=
  match rustLines tableContent with
  | l0 :: l1 :: row0 :: rest =>
    let headerRows := l0 ++ '\n' :: l1
    let r :=
      (row0 :: rest).foldl
        (fun (acc : List Str × Str) line =>
          if utf8Length acc.2 + 1 + utf8Length line ≤ maxChars then
            (acc.1, acc.2 ++ '\n' :: line)
          else (acc.1 ++ [acc.2], headerRows ++ '\n' :: line))
        ([], headerRows)
    if r.2 ≠ [] ∧ r.2 ≠ headerRows then r.1 ++ [r.2] else r.1
  | _ => split_by_lines tsplit tableContent maxChars

/-- `split_by_sentences`: pack `split_inclusive`-fragments ending in
`. ! ?`; flushed buffers are trimmed, an overlong fragment goes to the
external splitter, empty chunks are filtered at the end. -/
def split_by_sentences (tsplit : Nat → Str → List Str) (text : Str)
    (maxChars : Nat) : List Str :=
  let r :=
    (splitInclusive (fun c => c = '.' || c = '!' || c = '?') text).foldl
      (fun (acc : List Str × Str) part =>
        if utf8Length acc.2 + utf8Length part ≤ maxChars then
          (acc.1, acc.2 ++ part)
        else
          let cs := if acc.2 = [] then acc.1 else acc.1 ++ [rustTrim acc.2]
          if utf8Length part ≤ maxChars then (cs, part)
          else (cs ++ (tsplit maxChars part).map rustTrim, []))
      ([], [])
  let cs := if r.2 = [] then r.1 else r.1 ++ [rustTrim r.2]
  cs.filter (fun s => !s.isEmpty)

/-- `recursive_split`: paragraphs first (separator `"\n\n"`, packing with a
2-byte allowance), an oversized paragraph or a single-paragraph text goes to
`split_by_sentences`. -/
def recursive_split (tsplit : Nat → Str → List Str) (text : Str)
    (maxChars : Nat) : List Str :=
  if utf8Length text ≤ maxChars then [text]
  else
    let paragraphs := splitDoubleNewline text
    if 1 < paragraphs.length then
      let r :=
        paragraphs.foldl
          (fun (acc : List Str × Str) para =>
            if utf8Length acc.2 + utf8Length para + 2 ≤ maxChars then
              (acc.1,
               (if acc.2 = [] then [] else acc.2 ++ "\n\n".toList) ++ para)
            else
              let cs := if acc.2 = [] then acc.1 else acc.1 ++ [acc.2]
              if utf8Length para ≤ maxChars then (cs, para)
              else (cs ++ split_by_sentences tsplit para maxChars, []))
          ([], [])
      if r.2 = [] then r.1 else r.1 ++ [r.2]
    else split_by_sentences tsplit text maxChars

/-- `StructuredChunk` (`i32` indices and byte positions as `Int`). -/
structure StructuredChunk where
  index : Int
  content : Str
  header_path : Str
  chunk_type : Str
  start_pos : Int
  end_pos : Int
  batch_id : Option Str
  batch_index : Option Int
  batch_total : Option Int
deriving DecidableEq

/-- The section-loop state of `markdown_chunk`; `batch_counter` counts
`Uuid::new_v4()` calls for the uninterpreted generator. -/
structure MdState where
  chunks : List StructuredChunk
  current_pos : Int
  chunk_index : Int
  header_stack : List (Int × Str)
  batch_counter : Nat

/-- The sub-chunk loop of an oversized section: one `StructuredChunk` per
fragment, positions and indices advancing, batch metadata derived from the
optional batch id. -/
def pushSubs (hpath subType : Str) (batchId : Option Str) (total : Nat) :
    Nat → Int → Int → List Str → List StructuredChunk
  | _, _, _, [] => []
  | i, idx, pos, sub :: rest =>
    { index := idx, content := sub, header_path := hpath,
      chunk_type := subType, start_pos := pos,
      end_pos := pos + (utf8Length sub : Int),
      batch_id := batchId,
      batch_index := batchId.map (fun _ => (i : Int)),
      batch_total := batchId.map (fun _ => (total : Int)) } ::
      pushSubs hpath subType batchId total (i + 1) (idx + 1)
        (pos + (utf8Length sub : Int) + 1) rest

/-- One section of `markdown_chunk`: update the header stack, skip blank
content, emit a single chunk when the content fits, otherwise split by the
structure-specific splitter; only a code block split into more than one
fragment generates a batch id. -/
def markdownStep (uuidGen : Nat → Str) (tsplit : Nat → Str → List Str)
    (maxChars : Nat) (st : MdState) (sec : MdSection) : MdState :=
  let stack :=
    match sec.header with
    | some (level, htext) =>
      (st.header_stack.reverse.dropWhile
        (fun p => decide (level ≤ p.1))).reverse ++ [(level, htext)]
    | none => st.header_stack
  let hpath := joinStrSep (" > ".toList) (stack.map (·.2))
  let content := rustTrim sec.content
  if content = [] then { st with header_stack := stack }
  else
    let chunkType :=
      if sec.is_code_block then
        match sec.code_language with
        | some lang =>
          if lang = [] then "code".toList else "code:".toList ++ lang
        | none => "code".toList
      else if sec.is_table then "table".toList
      else if sec.header.isSome ∧ (rustLines content).length ≤ 2 then
        "header".toList
      else "text".toList
    if utf8Length content ≤ maxChars then
      { chunks := st.chunks ++
          [{ index := st.chunk_index, content := content,
             header_path := hpath, chunk_type := chunkType,
             start_pos := st.current_pos,
             end_pos := st.current_pos + (utf8Length content : Int),
             batch_id := none, batch_index := none, batch_total := none }],
        current_pos := st.current_pos + (utf8Length content : Int) + 1,
        chunk_index := st.chunk_index + 1,
        header_stack := stack,
        batch_counter := st.batch_counter }
    else
      let subs :=
        if sec.is_table then
          split_table_preserving_headers tsplit content maxChars
        else if sec.is_code_block then split_by_lines tsplit content maxChars
        else recursive_split tsplit content maxChars
      let batchId : Option Str :=
        if sec.is_code_block ∧ 1 < subs.length then
          some (uuidGen st.batch_counter)
        else none
      let subType :=
        if sec.is_code_block || sec.is_table then chunkType
        else "text".toList
      { chunks := st.chunks ++
          pushSubs hpath subType batchId subs.length 0 st.chunk_index
            st.current_pos subs,
        current_pos :=
          st.current_pos + (subs.map (fun s => (utf8Length s : Int) + 1)).sum,
        chunk_index := st.chunk_index + (subs.length : Int),
        header_stack := stack,
        batch_counter :=
          st.batch_counter + (if batchId.isSome then 1 else 0) }

/-- `markdown_chunk`. -/
def markdown_chunk (uuidGen : Nat → Str) (tsplit : Nat → Str → List Str)
    (text : Str) (maxChars : Int) : List StructuredChunk :=
  if text = [] then []
  else
    ((split_by_headers text).foldl
      (markdownStep uuidGen tsplit (max maxChars 100).toNat)
      { chunks := [], current_pos := 0, chunk_index := 0,
        header_stack := [], batch_counter := 0 }).chunks

/-- The oversized fenced code block of the repository's own
`test_code_block_linking` test (6 body lines of 20 bytes). -/
def c4CodeText : Str :=
  ("```\nlet a = 10000000000;\nlet b = 20000000000;\n" ++
   "let c = 30000000000;\nlet d = 40000000000;\n" ++
   "let e = 50000000000;\nlet f = 60000000000;\n```").toList

/-- The single code section `split_by_headers` finds in `c4CodeText`. -/
def c4CodeSec : MdSection :=
  { header := none, content := c4CodeText ++ ['\n'], is_code_block := true,
    is_table := false, code_language := none }

/-- The oversized pipe table of the repository's own
`test_large_table_splitting` test (2 header rows and 6 data rows). -/
def c4TableText : Str :=
  ("| Col1 | Col2 |\n|---|---|\n| Val1 | Val2 |\n| Val1 | Val2 |\n" ++
   "| Val1 | Val2 |\n| Val1 | Val2 |\n| Val1 | Val2 |\n| Val1 | Val2 |"
   ).toList

/-- The single table section `split_by_headers` finds in `c4TableText`. -/
def c4TableSec : MdSection :=
  { header := none, content := c4TableText ++ ['\n'], is_code_block := false,
    is_table := true, code_language := none }

/-- The top result of the concrete `hybridWitnessDb` run (doc 2: vector
rank 2, BM25 rank 1). -/
def c9WitnessRes : HybridSearchResult :=
  { doc_id := 2, content := "b".toList, score := 123 / 7564,
    vector_rank := 2, bm25_rank := 1, source_id := 2, metadata := none,
    chunk_index := 0 }

end MobileRag

namespace MobileRag

/-! ### Lemmas about `insertS` / `sortS` / `sortUniq` -/

theorem mem_insertS (lt : α → α → Bool) (x : α) (l : List α) (z : α) :
    z ∈ insertS lt x l ↔ z = x ∨ z ∈ l := by
  induction l with
  | nil => simp [insertS]
  | cons y ys ih =>
    by_cases h : lt y x = true
    · simp only [insertS, if_pos h, List.mem_cons, ih] <;> tauto
    · simp only [insertS, if_neg h, List.mem_cons] <;> tauto

theorem mem_sortS (lt : α → α → Bool) (l : List α) (z : α) :
    z ∈ sortS lt l ↔ z ∈ l := by
  induction l with
  | nil => simp [sortS]
  | cons y ys ih =>
    simp only [sortS, List.foldr_cons] at *
    rw [mem_insertS, ih, List.mem_cons]

theorem length_insertS (lt : α → α → Bool) (x : α) (l : List α) :
    (insertS lt x l).length = l.length + 1 := by
  induction l with
  | nil => simp [insertS]
  | cons y ys ih =>
    by_cases h : lt y x = true
    · simp [insertS, if_pos h, ih]
    · simp [insertS, if_neg h]

theorem length_sortS (lt : α → α → Bool) (l : List α) :
    (sortS lt l).length = l.length := by
  induction l with
  | nil => rfl
  | cons y ys ih =>
    simp only [sortS, List.foldr_cons] at *
    rw [length_insertS, ih, List.length_cons]

/-- Inserting with a key-descending comparator preserves key-descending
pairwise sortedness. -/
theorem pairwise_insertS_key (key : α → ℚ) (x : α) (l : List α)
    (hl : l.Pairwise (fun p q => key q ≤ key p)) :
    (insertS (fun a b => decide (key b < key a)) x l).Pairwise
      (fun p q => key q ≤ key p) := by
  induction l with
  | nil => simp [insertS]
  | cons y ys ih =>
    rcases List.pairwise_cons.mp hl with ⟨hy, hys⟩
    by_cases h : key x < key y
    · have hcond : (decide (key x < key y)) = true := by simpa using h
      simp only [insertS, hcond, if_true]
      refine List.pairwise_cons.mpr ⟨?_, ih hys⟩
      intro z hz
      rcases (mem_insertS _ _ _ _).mp hz with rfl | hz'
      · exact le_of_lt h
      · exact hy z hz'
    · have hcond : (decide (key x < key y)) = false := by simpa using h
      simp only [insertS, hcond, if_false]
      refine List.pairwise_cons.mpr ⟨?_, hl⟩
      intro z hz
      rcases List.mem_cons.mp hz with rfl | hz'
      · exact le_of_not_lt h
      · exact le_trans (hy z hz') (le_of_not_lt h)

/-- `sortS` by a key-descending comparator yields a key-descending list. -/
theorem pairwise_sortS_key (key : α → ℚ) (l : List α) :
    (sortS (fun a b => decide (key b < key a)) l).Pairwise
      (fun p q => key q ≤ key p) := by
  induction l with
  | nil => simp [sortS]
  | cons y ys ih =>
    simpa [sortS] using pairwise_insertS_key key y _ ih

/-- Strict-order pairwise property obtained by stably sorting (descending by
`key`) a list whose `idx` values strictly increase: ties in `key` stay in
`idx`-ascending order. -/
theorem pairwise_insertS_tie (key : α → ℚ) (idx : α → Int) (x : α) (l : List α)
    (hl : l.Pairwise (fun p q => key q < key p ∨ (key q = key p ∧ idx p < idx q)))
    (hx : ∀ y ∈ l, idx x < idx y) :
    (insertS (fun a b => decide (key b < key a)) x l).Pairwise
      (fun p q => key q < key p ∨ (key q = key p ∧ idx p < idx q)) := by
  induction l with
  | nil => simp [insertS]
  | cons y ys ih =>
    rcases List.pairwise_cons.mp hl with ⟨hy, hys⟩
    have hkey_le : ∀ z ∈ ys, key z ≤ key y := by
      intro z hz
      rcases hy z hz with h | ⟨h, _⟩
      · exact le_of_lt h
      · exact le_of_eq h
    by_cases h : key x < key y
    · have hcond : (decide (key x < key y)) = true := by simpa using h
      simp only [insertS, hcond, if_true]
      refine List.pairwise_cons.mpr ⟨?_, ?_⟩
      · intro z hz
        rcases (mem_insertS _ _ _ _).mp hz with rfl | hz'
        · exact Or.inl h
        · exact hy z hz'
      · exact ih hys (fun z hz => hx z (List.mem_cons_of_mem _ hz))
    · have hcond : (decide (key x < key y)) = false := by simpa using h
      simp only [insertS, hcond, if_false]
      refine List.pairwise_cons.mpr ⟨?_, hl⟩
      intro z hz
      have hzle : key z ≤ key x := by
        rcases List.mem_cons.mp hz with rfl | hz'
        · exact le_of_not_lt h
        · exact le_trans (hkey_le z hz') (le_of_not_lt h)
      rcases lt_or_eq_of_le hzle with hlt | heq
      · exact Or.inl hlt
      · exact Or.inr ⟨heq, hx z hz⟩

/-- Full statement for the RRF ranking step: stable descending sort of an
`idx`-strictly-ascending list is descending in `key` with ties broken by
ascending `idx`. -/
theorem pairwise_sortS_tie (key : α → ℚ) (idx : α → Int) (l : List α)
    (hl : l.Pairwise (fun p q => idx p < idx q)) :
    (sortS (fun a b => decide (key b < key a)) l).Pairwise
      (fun p q => key q < key p ∨ (key q = key p ∧ idx p < idx q)) := by
  induction l with
  | nil => simp [sortS]
  | cons y ys ih =>
    rcases List.pairwise_cons.mp hl with ⟨hy, hys⟩
    have : ∀ z ∈ sortS (fun a b => decide (key b < key a)) ys, idx y < idx z := by
      intro z hz
      exact hy z ((mem_sortS _ _ _).mp hz)
    simpa [sortS] using pairwise_insertS_tie key idx y _ (ih hys) this

theorem mem_insertUniq (x : Int) (l : List Int) (z : Int) :
    z ∈ insertUniq x l ↔ z = x ∨ z ∈ l := by
  induction l with
  | nil => simp [insertUniq]
  | cons y ys ih =>
    by_cases h1 : x < y
    · simp only [insertUniq, if_pos h1, List.mem_cons] <;> tauto
    · by_cases h2 : x = y
      · subst h2
        simp [insertUniq, h1] <;> tauto
      · simp only [insertUniq, if_neg h1, if_neg h2, List.mem_cons, ih] <;> tauto

theorem pairwise_insertUniq (x : Int) (l : List Int)
    (hl : l.Pairwise (· < ·)) :
    (insertUniq x l).Pairwise (· < ·) := by
  induction l with
  | nil => simp [insertUniq]
  | cons y ys ih =>
    rcases List.pairwise_cons.mp hl with ⟨hy, hys⟩
    by_cases h1 : x < y
    · simp only [insertUniq, if_pos h1]
      refine List.pairwise_cons.mpr ⟨?_, hl⟩
      intro z hz
      rcases List.mem_cons.mp hz with rfl | hz'
      · exact h1
      · exact lt_trans h1 (hy z hz')
    · by_cases h2 : x = y
      · subst h2
        simpa [insertUniq, h1] using hl
      · have hyx : y < x := by omega
        simp only [insertUniq, if_neg h1, if_neg h2]
        refine List.pairwise_cons.mpr ⟨?_, ih hys⟩
        intro z hz
        rcases (mem_insertUniq _ _ _).mp hz with rfl | hz'
        · exact hyx
        · exact hy z hz'

theorem pairwise_sortUniq (l : List Int) :
    (sortUniq l).Pairwise (· < ·) := by
  induction l with
  | nil => simp [sortUniq]
  | cons y ys ih =>
    simpa [sortUniq] using pairwise_insertUniq y _ ih

theorem mem_sortUniq (l : List Int) (z : Int) :
    z ∈ sortUniq l ↔ z ∈ l := by
  induction l with
  | nil => simp [sortUniq]
  | cons y ys ih =>
    simp only [sortUniq, List.foldr_cons] at *
    rw [mem_insertUniq, ih, List.mem_cons]

theorem nodup_sortUniq (l : List Int) : (sortUniq l).Nodup :=
  (pairwise_sortUniq l).nodup

/-! ### Lemmas about the `HashMap` association-list model -/

theorem keys_bumpWith [DecidableEq κ] (f : β → β) (d : β)
    (l : List (κ × β)) (k : κ) :
    (bumpWith f d l k).map (·.1) =
      if k ∈ l.map (·.1) then l.map (·.1) else l.map (·.1) ++ [k] := by
  induction l with
  | nil => simp [bumpWith]
  | cons p rest ih =>
    obtain ⟨k', v⟩ := p
    by_cases h : k' = k
    · subst h
      simp [bumpWith]
    · have h' : ¬(k = k') := fun hh => h hh.symm
      simp only [bumpWith, if_neg h, List.map_cons, List.mem_cons, ih]
      by_cases hk : k ∈ rest.map (·.1)
      · simp [hk, h']
      · simp [hk, h']

theorem nodup_keys_bumpWith [DecidableEq κ] (f : β → β) (d : β)
    (l : List (κ × β)) (k : κ) (h : (l.map (·.1)).Nodup) :
    ((bumpWith f d l k).map (·.1)).Nodup := by
  rw [keys_bumpWith]
  by_cases hk : k ∈ l.map (·.1)
  · simpa [hk] using h
  · simp only [if_neg hk]
    rw [List.nodup_append]
    refine ⟨h, List.nodup_singleton _, ?_⟩
    intro a ha hb
    rw [List.mem_singleton] at hb
    subst hb
    exact hk ha

theorem mem_keys_bumpWith [DecidableEq κ] (f : β → β) (d : β)
    (l : List (κ × β)) (k k' : κ) :
    k' ∈ (bumpWith f d l k).map (·.1) ↔ k' = k ∨ k' ∈ l.map (·.1) := by
  rw [keys_bumpWith]
  by_cases hk : k ∈ l.map (·.1)
  · simp only [if_pos hk]
    constructor
    · exact Or.inr
    · rintro (rfl | h)
      · exact hk
      · exact h
  · simp only [if_neg hk, List.mem_append, List.mem_singleton]
    tauto

/-- Every element of a postings list after `postingsPush` is either an old
element or the pushed pair. -/
theorem mem_entries_postingsPush (ps : List (Str × List (Int × Nat)))
    (t : Str) (e0 : Int × Nat) :
    ∀ p ∈ postingsPush ps t e0, ∀ e ∈ p.2,
      (∃ p' ∈ ps, e ∈ p'.2) ∨ e = e0 := by
  induction ps with
  | nil =>
    intro p hp e he
    simp only [postingsPush, bumpWith, List.mem_singleton] at hp
    subst hp
    exact Or.inr (by simpa using he)
  | cons q rest ih =>
    intro p hp e he
    obtain ⟨k', v⟩ := q
    by_cases h : k' = t
    · subst h
      simp only [postingsPush, bumpWith, if_pos rfl] at hp
      rcases List.mem_cons.mp hp with hpe | hp'
      · rw [hpe] at he
        rcases List.mem_append.mp he with h1 | h1
        · exact Or.inl ⟨(k', v), List.mem_cons_self _ _, h1⟩
        · exact Or.inr (List.mem_singleton.mp h1)
      · exact Or.inl ⟨p, List.mem_cons_of_mem _ hp', he⟩
    · simp only [postingsPush, bumpWith, if_neg h] at hp
      rcases List.mem_cons.mp hp with hpe | hp'
      · rw [hpe] at he
        exact Or.inl ⟨(k', v), List.mem_cons_self _ _, he⟩
      · rcases ih p hp' e he with ⟨p', hmem, hin⟩ | h1
        · exact Or.inl ⟨p', List.mem_cons_of_mem _ hmem, hin⟩
        · exact Or.inr h1

/-- Same property through the `add_document` postings fold. -/
theorem mem_entries_foldl_postingsPush (tfs : List (Str × Nat)) (docId : Int)
    (ps₀ : List (Str × List (Int × Nat))) :
    ∀ p ∈ tfs.foldl (fun ps tf => postingsPush ps tf.1 (docId, tf.2)) ps₀,
      ∀ e ∈ p.2, (∃ p' ∈ ps₀, e ∈ p'.2) ∨ e.1 = docId := by
  induction tfs generalizing ps₀ with
  | nil => intro p hp e he; exact Or.inl ⟨p, hp, he⟩
  | cons tf rest ih =>
    intro p hp e he
    simp only [List.foldl_cons] at hp
    rcases ih _ p hp e he with ⟨p', hp', he'⟩ | h1
    · rcases mem_entries_postingsPush ps₀ tf.1 (docId, tf.2) p' hp' e he' with
        h2 | h2
      · exact Or.inl h2
      · subst h2; exact Or.inr rfl
    · exact Or.inr h1

/-- Removing the (unique) entry found by `find?` from a duplicate-free
association list: length drops by one, the mapped sum drops by the entry's
contribution, keys stay duplicate-free. -/
theorem filter_remove_found (l : List (Int × DocMeta)) (k : Int)
    (m : Int × DocMeta) (g : Int × DocMeta → Nat)
    (hfind : l.find? (fun p => p.1 = k) = some m)
    (hnodup : (l.map (·.1)).Nodup) :
    (l.filter (fun p => !(decide (p.1 = k)))).length + 1 = l.length ∧
    ((l.filter (fun p => !(decide (p.1 = k)))).map g).sum + g m =
      (l.map g).sum ∧
    ((l.filter (fun p => !(decide (p.1 = k)))).map (·.1)).Nodup := by
  induction l with
  | nil => simp at hfind
  | cons q rest ih =>
    have hnodup' : q.1 ∉ rest.map (·.1) ∧ (rest.map (·.1)).Nodup := by
      rw [List.map_cons, List.nodup_cons] at hnodup
      exact hnodup
    obtain ⟨hq, hrest⟩ := hnodup'
    by_cases h : q.1 = k
    · have hstep : List.find? (fun p => decide (p.1 = k)) (q :: rest)
          = some q :=
        List.find?_cons_of_pos rest (by simpa using h)
      rw [hstep, Option.some.injEq] at hfind
      subst hfind
      have hall : ∀ p ∈ rest, ¬(p.1 = k) := by
        intro p hp hpk
        exact hq (List.mem_map.mpr ⟨p, hp, by rw [hpk, h]⟩)
      have hfilter : rest.filter (fun p => !(decide (p.1 = k))) = rest := by
        apply List.filter_eq_self.mpr
        intro p hp
        simpa using hall p hp
      have hfstep : List.filter (fun p => !(decide (p.1 = k))) (q :: rest)
          = List.filter (fun p => !(decide (p.1 = k))) rest :=
        List.filter_cons_of_neg (by simpa using h)
      rw [hfstep, hfilter]
      refine ⟨by simp, ?_, hrest⟩
      simp [Nat.add_comm]
    · have hstep : List.find? (fun p => decide (p.1 = k)) (q :: rest)
          = List.find? (fun p => decide (p.1 = k)) rest :=
        List.find?_cons_of_neg rest (by simpa using h)
      rw [hstep] at hfind
      obtain ⟨h1, h2, h3⟩ := ih hfind hrest
      have hfstep : List.filter (fun p => !(decide (p.1 = k))) (q :: rest)
          = q :: List.filter (fun p => !(decide (p.1 = k))) rest :=
        List.filter_cons_of_pos (by simpa using h)
      rw [hfstep]
      refine ⟨by simpa using h1, ?_, ?_⟩
      · simp only [List.map_cons, List.sum_cons]
        omega
      · simp only [List.map_cons]
        refine List.nodup_cons.mpr ⟨?_, h3⟩
        intro hmem
        rcases List.mem_map.mp hmem with ⟨p, hp, hpk⟩
        exact hq (List.mem_map.mpr ⟨p, (List.mem_filter.mp hp).1, hpk⟩)

/-! ### Preservation of the BM25 invariant (claim C8) -/

theorem bm25Inv_new : Bm25Inv InvertedIndex.new := by
  refine ⟨rfl, rfl, by simp [InvertedIndex.new], ?_, by simp [InvertedIndex.new]⟩
  intro p hp
  simp [InvertedIndex.new] at hp

theorem bm25Inv_addDocument (tk : Bm25Tok) (idx : InvertedIndex)
    (docId : Int) (content : Str) (h : Bm25Inv idx) :
    Bm25Inv (idx.addDocument tk docId content) := by
  obtain ⟨hcount, htotal, havg, hpost, hnodup⟩ := h
  by_cases h1 : (idx.doc_meta.find? (fun p => p.1 = docId)).isSome
  · simpa [InvertedIndex.addDocument, h1] using
      ⟨hcount, htotal, havg, hpost, hnodup⟩
  · by_cases h2 : (tokenizeForBm25 tk content).length = 0
    · simpa [InvertedIndex.addDocument, h1, h2] using
        ⟨hcount, htotal, havg, hpost, hnodup⟩
    · have hnotmem : docId ∉ idx.doc_meta.map (·.1) := by
        intro hmem
        rcases List.mem_map.mp hmem with ⟨p, hp, hpk⟩
        have : idx.doc_meta.find? (fun q => q.1 = docId) ≠ none := by
          intro hnone
          have := List.find?_eq_none.mp hnone p hp
          simp [hpk] at this
        rcases Option.ne_none_iff_isSome.mp this with hsome
        exact h1 hsome
      simp only [InvertedIndex.addDocument, h1, if_false, Bool.false_eq_true,
        h2, if_neg h2]
      refine ⟨?_, ?_, ?_, ?_, ?_⟩
      · simpa using hcount
      · simp only [List.map_append, List.sum_append]
        simpa using htotal
      · simp
      · intro p hp e he
        rcases mem_entries_foldl_postingsPush _ docId idx.postings p hp e he
          with ⟨p', hp', he'⟩ | hid
        · rcases hpost p' hp' e he' with ⟨q, hq, hqk⟩
          exact ⟨q, List.mem_append_left _ hq, hqk⟩
        · exact ⟨(docId, ⟨(tokenizeForBm25 tk content).length, docId⟩),
            List.mem_append_right _ (List.mem_singleton.mpr rfl), hid.symm⟩
      · simp only [List.map_append, List.map_cons, List.map_nil]
        rw [List.nodup_append]
        refine ⟨hnodup, List.nodup_singleton _, ?_⟩
        intro a ha hb
        rw [List.mem_singleton] at hb
        subst hb
        exact hnotmem ha

theorem bm25Inv_removeDocument (idx : InvertedIndex) (docId : Int)
    (h : Bm25Inv idx) : Bm25Inv (idx.removeDocument docId) := by
  obtain ⟨hcount, htotal, havg, hpost, hnodup⟩ := h
  rcases hfind : idx.doc_meta.find? (fun p => p.1 = docId) with _ | m
  · simpa [InvertedIndex.removeDocument, hfind] using
      ⟨hcount, htotal, havg, hpost, hnodup⟩
  · obtain ⟨hlen, hsum, hnd⟩ :=
      filter_remove_found idx.doc_meta docId m (fun p => p.2.length) hfind
        hnodup
    simp only [InvertedIndex.removeDocument, hfind, Option.map_some', Bm25Inv]
    refine ⟨?_, ?_, ?_, ?_, hnd⟩
    · omega
    · omega
    · by_cases hz : idx.doc_count - 1 = 0
      · simp [hz]
      · have : 0 < idx.doc_count - 1 := Nat.pos_of_ne_zero hz
        simp [hz, this]
    · intro p hp e he
      rcases List.mem_filter.mp hp with ⟨hp1, _⟩
      rcases List.mem_map.mp hp1 with ⟨orig, horig, rfl⟩
      rcases List.mem_filter.mp he with ⟨he1, he2⟩
      rcases hpost orig horig e he1 with ⟨q, hq, hqk⟩
      refine ⟨q, ?_, hqk⟩
      apply List.mem_filter.mpr
      refine ⟨hq, ?_⟩
      simp only [Bool.not_eq_eq_eq_not, Bool.not_true, decide_eq_false_iff_not]
      intro hqd
      rw [hqk] at hqd
      simp [hqd] at he2

/-! ### Lemmas about `InvertedIndex.search` (claim C5) -/

theorem nodup_keys_searchScores (tk : Bm25Tok) (lnq : ℚ → ℚ)
    (idx : InvertedIndex) (query : Str) :
    ((idx.searchScores tk lnq query).map (·.1)).Nodup := by
  unfold InvertedIndex.searchScores
  have inner : ∀ (ps : List (Int × Nat)) (idf : ℚ)
      (scores : List (Int × ℚ)), (scores.map (·.1)).Nodup →
      ((ps.foldl
          (fun scores e =>
            match alistLookup idx.doc_meta e.1 with
            | none => scores
            | some meta =>
              bumpWith
                (· + idf * (((e.2 : ℚ)) * (bm25K1 + 1) /
                  ((e.2 : ℚ) + bm25K1 *
                    (1 - bm25B + bm25B *
                      ((meta.length : ℚ) / idx.avg_doc_length))))) 0 scores
                e.1)
          scores).map (·.1)).Nodup := by
    intro ps idf
    induction ps with
    | nil => intro scores h; exact h
    | cons e rest ih =>
      intro scores h
      simp only [List.foldl_cons]
      rcases hm : alistLookup idx.doc_meta e.1 with _ | meta
      · simpa [hm] using ih scores h
      · simpa [hm] using ih _ (nodup_keys_bumpWith _ _ scores e.1 h)
  have outer : ∀ (tokens : List Str) (scores : List (Int × ℚ)),
      (scores.map (·.1)).Nodup →
      ((tokens.foldl
          (fun scores token =>
            match alistLookup idx.postings token with
            | none => scores
            | some ps =>
              let n : ℚ := ps.length
              let idf :=
                lnq (((idx.doc_count : ℚ) - n + 1 / 2) / (n + 1 / 2) + 1)
              ps.foldl
                (fun scores e =>
                  match alistLookup idx.doc_meta e.1 with
                  | none => scores
                  | some meta =>
                    let tfF : ℚ := e.2
                    let docLen : ℚ := meta.length
                    let tfComponent :=
                      tfF * (bm25K1 + 1) /
                        (tfF + bm25K1 *
                          (1 - bm25B + bm25B *
                            (docLen / idx.avg_doc_length)))
                    bumpWith (· + idf * tfComponent) 0 scores e.1)
                scores)
          scores).map (·.1)).Nodup := by
    intro tokens
    induction tokens with
    | nil => intro scores h; exact h
    | cons t rest ih =>
      intro scores h
      simp only [List.foldl_cons]
      rcases hp : alistLookup idx.postings t with _ | ps
      · simpa [hp] using ih scores h
      · simp only [hp]
        exact ih _ (inner ps _ scores h)
  exact outer _ [] (by simp)

/-- Any key of the collected score map is a matching document id. -/
theorem keys_searchScores_subset (tk : Bm25Tok) (lnq : ℚ → ℚ)
    (idx : InvertedIndex) (query : Str) :
    ∀ d ∈ (idx.searchScores tk lnq query).map (·.1),
      d ∈ idx.matchingDocIds tk query := by
  have memBig : ∀ (tokens : List Str) (t : Str) (ps : List (Int × Nat))
      (d : Int), t ∈ tokens → alistLookup idx.postings t = some ps →
      d ∈ ps.map (·.1) →
      d ∈ tokens.foldr
        (fun t acc =>
          (match alistLookup idx.postings t with
            | none => []
            | some ps => ps.map (·.1)) ++ acc) [] := by
    intro tokens
    induction tokens with
    | nil => intro t ps d h; simp at h
    | cons t0 rest ih =>
      intro t ps d ht hlook hd
      simp only [List.foldr_cons, List.mem_append]
      rcases List.mem_cons.mp ht with rfl | ht'
      · exact Or.inl (by simp [hlook, hd])
      · exact Or.inr (ih t ps d ht' hlook hd)
  have inner : ∀ (ps : List (Int × Nat)) (idf : ℚ)
      (scores : List (Int × ℚ)) (d : Int),
      d ∈ ((ps.foldl
          (fun scores e =>
            match alistLookup idx.doc_meta e.1 with
            | none => scores
            | some meta =>
              bumpWith
                (· + idf * (((e.2 : ℚ)) * (bm25K1 + 1) /
                  ((e.2 : ℚ) + bm25K1 *
                    (1 - bm25B + bm25B *
                      ((meta.length : ℚ) / idx.avg_doc_length))))) 0 scores
                e.1)
          scores).map (·.1)) →
      d ∈ scores.map (·.1) ∨
        (∃ e ∈ ps, e.1 = d) ∧ (alistLookup idx.doc_meta d).isSome := by
    intro ps idf
    induction ps with
    | nil => intro scores d h; exact Or.inl h
    | cons e rest ih =>
      intro scores d h
      simp only [List.foldl_cons] at h
      rcases hm : alistLookup idx.doc_meta e.1 with _ | meta
      · rw [hm] at h
        rcases ih scores d h with h1 | ⟨⟨e', he', hd⟩, hs⟩
        · exact Or.inl h1
        · exact Or.inr ⟨⟨e', List.mem_cons_of_mem _ he', hd⟩, hs⟩
      · rw [hm] at h
        rcases ih _ d h with h1 | ⟨⟨e', he', hd⟩, hs⟩
        · rcases (mem_keys_bumpWith _ _ scores e.1 d).mp h1 with rfl | h2
          · exact Or.inr ⟨⟨e, List.mem_cons_self _ _, rfl⟩, by simp [hm]⟩
          · exact Or.inl h2
        · exact Or.inr ⟨⟨e', List.mem_cons_of_mem _ he', hd⟩, hs⟩
  have outer : ∀ (tokens : List Str) (scores : List (Int × ℚ)) (d : Int),
      d ∈ ((tokens.foldl
          (fun scores token =>
            match alistLookup idx.postings token with
            | none => scores
            | some ps =>
              let n : ℚ := ps.length
              let idf :=
                lnq (((idx.doc_count : ℚ) - n + 1 / 2) / (n + 1 / 2) + 1)
              ps.foldl
                (fun scores e =>
                  match alistLookup idx.doc_meta e.1 with
                  | none => scores
                  | some meta =>
                    let tfF : ℚ := e.2
                    let docLen : ℚ := meta.length
                    let tfComponent :=
                      tfF * (bm25K1 + 1) /
                        (tfF + bm25K1 *
                          (1 - bm25B + bm25B *
                            (docLen / idx.avg_doc_length)))
                    bumpWith (· + idf * tfComponent) 0 scores e.1)
                scores)
          scores).map (·.1)) →
      d ∈ scores.map (·.1) ∨
        ∃ t ∈ tokens, ∃ ps, alistLookup idx.postings t = some ps ∧
          (∃ e ∈ ps, e.1 = d) ∧ (alistLookup idx.doc_meta d).isSome := by
    intro tokens
    induction tokens with
    | nil => intro scores d h; exact Or.inl h
    | cons t rest ih =>
      intro scores d h
      simp only [List.foldl_cons] at h
      rcases hp : alistLookup idx.postings t with _ | ps
      · rw [hp] at h
        rcases ih scores d h with h1 | ⟨t', ht', rest'⟩
        · exact Or.inl h1
        · exact Or.inr ⟨t', List.mem_cons_of_mem _ ht', rest'⟩
      · rw [hp] at h
        rcases ih _ d h with h1 | ⟨t', ht', rest'⟩
        · rcases inner ps _ scores d h1 with h2 | ⟨he, hs⟩
          · exact Or.inl h2
          · exact Or.inr ⟨t, List.mem_cons_self _ _, ps, hp, he, hs⟩
        · exact Or.inr ⟨t', List.mem_cons_of_mem _ ht', rest'⟩
  intro d hd
  rcases outer (tokenizeForBm25 tk query) [] d (by
      simpa [InvertedIndex.searchScores] using hd) with h1 | h2
  · simp at h1
  · rcases h2 with ⟨t, ht, ps, hlook, ⟨e, he, hd'⟩, hs⟩
    rw [InvertedIndex.matchingDocIds, mem_sortUniq]
    apply List.mem_filter.mpr
    refine ⟨?_, by simpa using hs⟩
    exact memBig _ t ps d ht hlook (List.mem_map.mpr ⟨e, he, hd'⟩)

theorem bm25Inv_apply (tk : Bm25Tok) (op : Bm25Op) (idx : InvertedIndex)
    (h : Bm25Inv idx) : Bm25Inv (op.apply tk idx) := by
  cases op with
  | add docId content => exact bm25Inv_addDocument tk idx docId content h
  | addMany docs =>
    induction docs generalizing idx with
    | nil => exact h
    | cons d rest ih =>
      simp only [Bm25Op.apply, List.foldl_cons]
      exact ih _ (bm25Inv_addDocument tk idx d.1 d.2 h)
  | remove docId => exact bm25Inv_removeDocument idx docId h
  | clear => exact bm25Inv_new

/-! ## Claim theorems for the BM25 index -/

/-- C8: after every sequence of BM25 operations (`add_document`,
`add_documents`, `remove_document`, `clear`) starting from the fresh index,
`doc_count` equals the number of `doc_meta` entries, `total_tokens` equals
the sum of the stored lengths, `avg_doc_length` equals
`total_tokens / doc_count` when `doc_count > 0` and `0` otherwise, and every
`(chunk_id, tf)` pair in every postings list refers to a chunk id present in
`doc_meta`. -/
theorem c8_bm25_index_invariants (tk : Bm25Tok) (ops : List Bm25Op) :
    Bm25Inv (applyBm25Ops tk ops) := by
  have main : ∀ idx, Bm25Inv idx →
      Bm25Inv (ops.foldl (Bm25Op.apply tk) idx) := by
    induction ops with
    | nil => intro idx h; exact h
    | cons op rest ih =>
      intro idx h
      exact ih _ (bm25Inv_apply tk op idx h)
  exact main _ bm25Inv_new

unseal Rat.mul Rat.add Rat.inv Rat.sub in
/-- C10 counterexample: the content `"é"` consists of a single maximal
alphanumeric run of one character (shorter than 2 characters), yet its BM25
tokenization is non-empty — the length filter counts UTF-8 bytes, and `é`
occupies two — so `add_document` does modify the index, contradicting the
claim's parenthetical characterization of the zero-token condition. -/
theorem c10_counterexample_multibyte :
    allAlnumRunsShort extendedTok.isAlphanumeric ['é'] = true ∧
    tokenizeForBm25 extendedTok ['é'] ≠ [] ∧
    (InvertedIndex.new.addDocument extendedTok 1 ['é']).doc_count = 1 ∧
    InvertedIndex.new.addDocument extendedTok 1 ['é'] ≠ InvertedIndex.new := by
  decide

/-- C10 (amended): for every chunk id and every content string whose BM25
tokenization yields zero tokens — i.e. every maximal run of
alphanumeric-or-underscore characters of the lowercased content is shorter
than 2 UTF-8 **bytes** — `add_document` leaves the index completely
unchanged: it is not counted by the document count and cannot change any
search result. -/
theorem c10_empty_tokenization_noop (tk : Bm25Tok) (idx : InvertedIndex)
    (docId : Int) (content : Str)
    (h : tokenizeForBm25 tk content = []) :
    idx.addDocument tk docId content = idx ∧
    (idx.addDocument tk docId content).doc_count = idx.doc_count ∧
    ∀ (lnq : ℚ → ℚ) (enum : List (Int × ℚ) → List (Int × ℚ)) (query : Str)
      (topK : Nat),
      (idx.addDocument tk docId content).searchWith tk lnq enum query topK =
        idx.searchWith tk lnq enum query topK := by
  have hmain : idx.addDocument tk docId content = idx := by
    by_cases h1 : (idx.doc_meta.find? (fun p => p.1 = docId)).isSome
    · simp [InvertedIndex.addDocument, h1]
    · simp [InvertedIndex.addDocument, h1, h]
  exact ⟨hmain, by rw [hmain], fun lnq enum query topK => by rw [hmain]⟩

/-- Witness for C10 (amended): `"! !"` tokenizes to nothing and adding it to
the fresh index is a no-op. -/
theorem c10_empty_tokenization_noop_witness :
    tokenizeForBm25 asciiTok ("! !".toList) = [] ∧
    InvertedIndex.new.addDocument asciiTok 7 ("! !".toList) =
      InvertedIndex.new :=
  ⟨by decide,
   (c10_empty_tokenization_noop asciiTok InvertedIndex.new 7 ("! !".toList)
      (by decide)).1⟩

unseal Rat.mul Rat.add Rat.inv Rat.sub in
/-- C5 counterexample: two documents with identical content and a one-term
query produce an exact score tie; enumerating the `scores` hash map in
reversed order — a legitimate `HashMap` iteration order, being a permutation
— makes the tied entries come out as `[2, 1]`, while the postings list of
the query term holds them in insertion order `[(1, _), (2, _)]`.  Ties are
therefore not resolved by insertion order of chunk id within postings. -/
theorem c5_counterexample_tie_order :
    (List.reverse (tieIndex.searchScores asciiTok id ("hello".toList))).Perm
      (tieIndex.searchScores asciiTok id ("hello".toList)) ∧
    alistLookup tieIndex.postings ("hello".toList) = some [(1, 1), (2, 1)] ∧
    tieIndex.searchWith asciiTok id List.reverse ("hello".toList) 10 =
      [(2, 6 / 5), (1, 6 / 5)] := by
  decide

/-- C5 (amended): for every BM25 index state, query and hash-map iteration
order, `search(query, top_k)` returns a list sorted by non-increasing score
whose length is at most `min(top_k, number of documents matching at least
one query term)`; the relative order of entries with equal scores is the
(unspecified) hash-map iteration order. -/
theorem c5_bm25_search_sorted_bounded (tk : Bm25Tok) (lnq : ℚ → ℚ)
    (enum : List (Int × ℚ) → List (Int × ℚ)) (idx : InvertedIndex)
    (query : Str) (topK : Nat)
    (henum : ∀ l, (enum l).Perm l) :
    (idx.searchWith tk lnq enum query topK).Pairwise
      (fun p q => q.2 ≤ p.2) ∧
    (idx.searchWith tk lnq enum query topK).length ≤
      min topK (idx.matchingDocIds tk query).length := by
  by_cases h1 : idx.doc_count = 0
  · constructor <;> simp [InvertedIndex.searchWith, h1]
  · by_cases h2 : (tokenizeForBm25 tk query).isEmpty
    · constructor <;> simp [InvertedIndex.searchWith, h1, h2]
    · have heq : idx.searchWith tk lnq enum query topK =
          (sortS (fun a b => decide (b.2 < a.2))
            (enum (idx.searchScores tk lnq query))).take topK := by
        unfold InvertedIndex.searchWith
        rw [if_neg h1, if_neg h2]
      have hlen1 : (idx.searchScores tk lnq query).length ≤
          (idx.matchingDocIds tk query).length := by
        have hn := nodup_keys_searchScores tk lnq idx query
        have hs := keys_searchScores_subset tk lnq idx query
        have hsub := (hn.subperm hs).length_le
        simpa using hsub
      constructor
      · rw [heq]
        exact List.Pairwise.sublist (List.take_sublist _ _)
          (pairwise_sortS_key (fun p : Int × ℚ => p.2) _)
      · rw [heq, List.length_take, length_sortS,
          (henum (idx.searchScores tk lnq query)).length_eq]
        exact min_le_min (le_refl topK) hlen1

/-- Witness for C5 (amended), at the identity iteration order on the
tie index. -/
theorem c5_bm25_search_sorted_bounded_witness :
    (tieIndex.searchWith asciiTok id id ("hello".toList) 1).Pairwise
      (fun p q => q.2 ≤ p.2) ∧
    (tieIndex.searchWith asciiTok id id ("hello".toList) 1).length ≤
      min 1 (tieIndex.matchingDocIds asciiTok ("hello".toList)).length :=
  c5_bm25_search_sorted_bounded asciiTok id id tieIndex ("hello".toList) 1
    (fun l => List.Perm.refl l)

/-! ### Lemmas about blob decoding and the linear scan -/

theorem decodeEmbeddingBlob_eq_none_iff (f32dec : Nat → Nat → Nat → Nat → ℚ) :
    ∀ blob : List Nat,
      decodeEmbeddingBlob f32dec blob = none ↔ blob.length % 4 ≠ 0
  | [] => by simp [decodeEmbeddingBlob]
  | [_] => by simp [decodeEmbeddingBlob]
  | [_, _] => by simp [decodeEmbeddingBlob]
  | [_, _, _] => by simp [decodeEmbeddingBlob]
  | b0 :: b1 :: b2 :: b3 :: rest => by
    have ih := decodeEmbeddingBlob_eq_none_iff f32dec rest
    simp only [decodeEmbeddingBlob, Option.map_eq_none', ih, List.length_cons]
    constructor
    · intro h hmod
      exact h (by omega)
    · intro h hmod
      exact h (by omega)

theorem search_chunks_linear_none_iff (sqrtq : ℚ → ℚ)
    (f32dec : Nat → Nat → Nat → Nat → ℚ) (db : Db)
    (queryEmbedding : List ℚ) (topK : Nat) :
    search_chunks_linear sqrtq f32dec db queryEmbedding topK = none ↔
      ∃ c ∈ db.chunks, c.embedding.length % 4 ≠ 0 := by
  have hnone : ∀ (rows : List ChunkRow)
      (step : Option (List ChunkSearchResult) → ChunkRow →
        Option (List ChunkSearchResult)),
      (∀ row, step none row = none) → rows.foldl step none = none := by
    intro rows step hstep
    induction rows with
    | nil => rfl
    | cons row rest ih => simp only [List.foldl_cons, hstep]; exact ih
  rw [search_chunks_linear]
  rw [Option.map_eq_none']
  have main : ∀ (rows : List ChunkRow) (acc : List ChunkSearchResult),
      (rows.foldl
        (fun acc row =>
          acc.bind fun cs =>
            (decodeEmbeddingBlob f32dec row.embedding).map fun embedding =>
              if embedding.length = queryEmbedding.length then
                let targetNorm := sqrtq (sumSquares embedding)
                let dotProd := dotProduct queryEmbedding embedding
                let similarity :=
                  if sqrtq (sumSquares queryEmbedding) = 0 ∨ targetNorm = 0
                    then 0
                  else dotProd / (sqrtq (sumSquares queryEmbedding) * targetNorm)
                cs ++ [{ chunk_id := row.id, source_id := row.source_id,
                         chunk_index := row.chunk_index,
                         content := row.content,
                         chunk_type := row.chunk_type,
                         similarity := similarity,
                         metadata :=
                           (db.sources.find?
                               (fun s => s.id = row.source_id)).bind
                             (·.metadata) }]
              else cs)
        (some acc) = none) ↔
      ∃ c ∈ rows, decodeEmbeddingBlob f32dec c.embedding = none := by
    intro rows
    induction rows with
    | nil => simp
    | cons row rest ih =>
      intro acc
      simp only [List.foldl_cons, Option.some_bind]
      rcases hdec : decodeEmbeddingBlob f32dec row.embedding with _ | emb
      · simp only [hdec, Option.map_none']
        constructor
        · intro _
          exact ⟨row, List.mem_cons_self _ _, hdec⟩
        · intro _
          exact hnone rest _ (fun r => rfl)
      · simp only [hdec, Option.map_some']
        rw [ih]
        constructor
        · intro ⟨c, hc, hcd⟩
          exact ⟨c, List.mem_cons_of_mem _ hc, hcd⟩
        · intro ⟨c, hc, hcd⟩
          rcases List.mem_cons.mp hc with rfl | hc'
          · rw [hdec] at hcd; cases hcd
          · exact ⟨c, hc', hcd⟩
  rw [main]
  constructor
  · intro ⟨c, hc, hcd⟩
    exact ⟨c, hc, (decodeEmbeddingBlob_eq_none_iff f32dec c.embedding).mp hcd⟩
  · intro ⟨c, hc, hcd⟩
    exact ⟨c, hc, (decodeEmbeddingBlob_eq_none_iff f32dec c.embedding).mpr hcd⟩

/-! ## Claim theorem for the compression utility -/

/-- C7: the truncation backtrack of `compress_text` slices the string at
`rfind`'s byte index + 1, which is inside the character when the last
terminal punctuation of the truncated text is the 3-byte `。`, so the slice
panics instead of completing.  On `"ab。cdefghijkl"` with `max_chars = 5`
the result after dedup is `"ab。 cdefghijkl"` (14 chars > 5), the 5-char
truncation is `"ab。 c"`, the last terminal punctuation is `。` at byte
index 2, and `result[..=2]` panics (`none`); the ASCII analogue
`"ab.cdefghijkl"` completes and returns `"ab."`.  The punctuation set of the
code includes `。` on purpose, so the panic is a byte/char indexing slip and
the claim describes the intended behavior. -/
theorem c7_truncation_backtrack_panics_on_cjk :
    compress_text ("ab。cdefghijkl".toList) 5
        ⟨false, true, "en".toList, 1⟩ = none ∧
    (compress_text ("ab.cdefghijkl".toList) 5
        ⟨false, true, "en".toList, 1⟩).map (·.text) =
      some ("ab.".toList) := by
  decide

/-! ### Lemmas about rank maps and the RRF stage -/

theorem alistLookup_eq_none_iff [DecidableEq κ] (l : List (κ × β)) (k : κ) :
    alistLookup l k = none ↔ k ∉ l.map (·.1) := by
  rw [alistLookup, Option.map_eq_none', List.find?_eq_none]
  constructor
  · intro h hmem
    rcases List.mem_map.mp hmem with ⟨p, hp, hpk⟩
    exact absurd (by simpa using hpk) (by simpa using h p hp)
  · intro h p hp
    simp only [decide_eq_true_eq]
    intro hpk
    exact h (List.mem_map.mpr ⟨p, hp, hpk⟩)

theorem alistLookup_cons_self [DecidableEq κ] (k : κ) (v : β)
    (l : List (κ × β)) : alistLookup ((k, v) :: l) k = some v := by
  have hstep : List.find? (fun p => decide (p.1 = k)) ((k, v) :: l)
      = some (k, v) :=
    List.find?_cons_of_pos l (by simp)
  rw [alistLookup, hstep, Option.map_some']

theorem alistLookup_cons_ne [DecidableEq κ] (k0 k' : κ) (v : β)
    (l : List (κ × β)) (h : ¬k' = k0) :
    alistLookup ((k0, v) :: l) k' = alistLookup l k' := by
  have hstep : List.find? (fun p => decide (p.1 = k')) ((k0, v) :: l)
      = List.find? (fun p => decide (p.1 = k')) l :=
    List.find?_cons_of_neg l (by simpa using fun hh : k0 = k' => h hh.symm)
  rw [alistLookup, hstep, alistLookup]

theorem alistLookup_bumpWith [DecidableEq κ] (f : β → β) (d : β)
    (l : List (κ × β)) (k k' : κ) :
    alistLookup (bumpWith f d l k) k' =
      if k' = k then some (f ((alistLookup l k).getD d))
      else alistLookup l k' := by
  induction l with
  | nil =>
    by_cases h : k' = k
    · subst h
      simp only [bumpWith, if_pos rfl, alistLookup_cons_self]
      simp [alistLookup]
    · simp only [bumpWith, if_neg h]
      rw [alistLookup_cons_ne _ _ _ _ h]
  | cons p rest ih =>
    obtain ⟨k0, v⟩ := p
    by_cases h0 : k0 = k
    · subst h0
      have hbump : bumpWith f d ((k0, v) :: rest) k0 = (k0, f v) :: rest := by
        simp [bumpWith]
      rw [hbump]
      by_cases h : k' = k0
      · subst h
        rw [alistLookup_cons_self, alistLookup_cons_self, if_pos rfl]
        simp
      · rw [alistLookup_cons_ne _ _ _ _ h, if_neg h,
          alistLookup_cons_ne _ _ _ _ h]
    · simp only [bumpWith, if_neg h0]
      by_cases h : k' = k0
      · subst h
        have hne : ¬(k' = k) := fun hh => h0 (hh ▸ rfl)
        rw [alistLookup_cons_self, if_neg hne, alistLookup_cons_self]
      · rw [alistLookup_cons_ne _ _ _ _ h, ih,
          alistLookup_cons_ne _ _ _ _ h]
        by_cases hk : k' = k
        · subst hk
          have hne0 : ¬(k' = k0) := h
          rw [if_pos rfl, if_pos rfl, alistLookup_cons_ne _ _ _ _ hne0]
        · rw [if_neg hk, if_neg hk]

theorem mem_keys_alistInsert [DecidableEq κ] (l : List (κ × β)) (k : κ)
    (v : β) (k' : κ) :
    k' ∈ (alistInsert l k v).map (·.1) ↔ k' = k ∨ k' ∈ l.map (·.1) :=
  mem_keys_bumpWith _ _ l k k'

theorem alistLookup_alistInsert [DecidableEq κ] (l : List (κ × β)) (k : κ)
    (v : β) (k' : κ) :
    alistLookup (alistInsert l k v) k' =
      if k' = k then some v else alistLookup l k' :=
  alistLookup_bumpWith _ _ l k k'

/-- Every rank stored by `buildRankMap` points back at its id's position:
`rank = i + 1` with `ids[i]? = some id`. -/
theorem lookup_buildRankMap (ids : List Int) (id : Int) (r : Nat)
    (h : alistLookup (buildRankMap ids) id = some r) :
    1 ≤ r ∧ ids[r - 1]? = some id := by
  rw [buildRankMap] at h
  have main : ∀ (ps : List (Nat × Int)) (m : List (Int × Nat)),
      (∀ p ∈ ps, ids[p.1]? = some p.2) →
      (∀ id' r', alistLookup m id' = some r' →
        1 ≤ r' ∧ ids[r' - 1]? = some id') →
      ∀ id' r',
        alistLookup (ps.foldl (fun m p => alistInsert m p.2 (p.1 + 1)) m)
          id' = some r' →
        1 ≤ r' ∧ ids[r' - 1]? = some id' := by
    intro ps
    induction ps with
    | nil => intro m _ hm id' r' h'; exact hm id' r' h'
    | cons p rest ih =>
      intro m hps hm id' r' h'
      simp only [List.foldl_cons] at h'
      refine ih _ (fun q hq => hps q (List.mem_cons_of_mem _ hq)) ?_ id' r' h'
      intro id'' r'' h''
      rw [alistLookup_alistInsert] at h''
      by_cases hcase : id'' = p.2
      · rw [if_pos hcase] at h''
        injection h'' with hr
        subst hr
        subst hcase
        exact ⟨by omega, by simpa using hps p (List.mem_cons_self _ _)⟩
      · rw [if_neg hcase] at h''
        exact hm id'' r'' h''
  refine main ids.enum [] ?_ (by intro id' r' h'; simp [alistLookup] at h')
    id r h
  intro p hp
  exact List.mem_enum_iff_getElem?.mp hp

/-- Membership in the rank map's keys is membership in the candidate ids. -/
theorem mem_keys_buildRankMap (ids : List Int) (id : Int) :
    id ∈ (buildRankMap ids).map (·.1) ↔ id ∈ ids := by
  rw [buildRankMap]
  have main : ∀ (ps : List (Nat × Int)) (m : List (Int × Nat)),
      id ∈ ((ps.foldl (fun m p => alistInsert m p.2 (p.1 + 1)) m).map (·.1))
        ↔ id ∈ m.map (·.1) ∨ id ∈ ps.map (·.2) := by
    intro ps
    induction ps with
    | nil => intro m; simp
    | cons p rest ih =>
      intro m
      simp only [List.foldl_cons, ih, mem_keys_alistInsert, List.map_cons,
        List.mem_cons]
      tauto
  rw [main]
  have hsnd : ids.enum.map (fun p => p.2) = ids := List.enum_map_snd ids
  constructor
  · intro h
    rcases h with h | h
    · simp at h
    · rw [hsnd] at h
      exact h
  · intro h
    right
    rw [hsnd]
    exact h

theorem alistLookup_isSome_iff [DecidableEq κ] (l : List (κ × β)) (k : κ) :
    (alistLookup l k).isSome = true ↔ k ∈ l.map (·.1) := by
  rcases h : alistLookup l k with _ | v
  · simp only [Option.isSome_none, Bool.false_eq_true, false_iff]
    exact (alistLookup_eq_none_iff l k).mp h
  · simp only [Option.isSome_some, true_iff]
    by_contra hmem
    rw [(alistLookup_eq_none_iff l k).mpr hmem] at h
    cases h

/-- Transfer a pairwise relation through `filterMap`. -/
theorem pairwise_filterMap_of_pairwise (f : α → Option γ)
    (S : α → α → Prop) (R : γ → γ → Prop) (l : List α) (hl : l.Pairwise S)
    (h : ∀ a b x y, S a b → f a = some x → f b = some y → R x y) :
    (l.filterMap f).Pairwise R := by
  induction l with
  | nil => simp
  | cons a rest ih =>
    rcases List.pairwise_cons.mp hl with ⟨ha, hrest⟩
    rcases hfa : f a with _ | x
    · rw [List.filterMap_cons_none hfa]
      exact ih hrest
    · rw [List.filterMap_cons_some hfa]
      refine List.pairwise_cons.mpr ⟨?_, ih hrest⟩
      intro y hy
      rcases List.mem_filterMap.mp hy with ⟨b, hb, hfb⟩
      exact h a b x y (ha b hb) hfa hfb

/-- Two entries of a list with duplicate-free keys that share a key are the
same entry. -/
theorem eq_of_mem_nodup_keys (f : α → Int) (l : List α)
    (hn : (l.map f).Nodup) (a b : α) (ha : a ∈ l) (hb : b ∈ l)
    (hf : f a = f b) : a = b := by
  induction l with
  | nil => cases ha
  | cons c rest ih =>
    rw [List.map_cons, List.nodup_cons] at hn
    rcases List.mem_cons.mp ha with rfl | ha'
    · rcases List.mem_cons.mp hb with rfl | hb'
      · rfl
      · exact absurd (List.mem_map.mpr ⟨b, hb', hf.symm⟩) hn.1
    · rcases List.mem_cons.mp hb with rfl | hb'
      · exact absurd (List.mem_map.mpr ⟨a, ha', hf⟩) hn.1
      · exact ih hn.2 ha' hb'

/-- The fused, hydrated output is sorted by combined score descending with
ties broken by ascending id, and holds at most `top_k` entries. -/
theorem fuseAndHydrate_sorted (db : Db) (filterIsNone : Bool)
    (config : RrfConfig) (topK : Nat) (v : List HnswSearchResult)
    (b : List Bm25SearchResult) :
    (fuseAndHydrate db filterIsNone config topK v b).Pairwise
      (fun r1 r2 =>
        r2.score < r1.score ∨
          (r2.score = r1.score ∧ r1.doc_id < r2.doc_id)) ∧
    (fuseAndHydrate db filterIsNone config topK v b).length ≤ topK := by
  rw [fuseAndHydrate]
  have hids :
      (sortUniq ((buildRankMap (v.map (·.id))).map (·.1) ++
        (buildRankMap (b.map (·.doc_id))).map (·.1))).Pairwise (· < ·) :=
    pairwise_sortUniq _
  have hentries :
      (rrfEntries (config) (buildRankMap (v.map (·.id)))
        (buildRankMap (b.map (·.doc_id)))
        (sortUniq ((buildRankMap (v.map (·.id))).map (·.1) ++
          (buildRankMap (b.map (·.doc_id))).map (·.1)))).Pairwise
        (fun e1 e2 => e1.doc_id < e2.doc_id) := by
    rw [rrfEntries, List.pairwise_map]
    exact hids.imp (fun h => h)
  have hsorted := pairwise_sortS_tie (fun e : RrfEntry => e.combined)
    (fun e : RrfEntry => e.doc_id) _ hentries
  have htake := List.Pairwise.sublist (List.take_sublist topK _) hsorted
  constructor
  · refine pairwise_filterMap_of_pairwise _ _ _ _ htake ?_
    intro e1 e2 x y hS hx hy
    rcases Option.map_eq_some'.mp hx with ⟨r1, _, hr1⟩
    rcases Option.map_eq_some'.mp hy with ⟨r2, _, hr2⟩
    subst hr1
    subst hr2
    exact hS
  · calc ((List.take topK (sortS (fun a b => decide (b.combined < a.combined))
          (rrfEntries config (buildRankMap (v.map (·.id)))
            (buildRankMap (b.map (·.doc_id)))
            (sortUniq ((buildRankMap (v.map (·.id))).map (·.1) ++
              (buildRankMap (b.map (·.doc_id))).map (·.1)))))).filterMap
              _).length
        ≤ (List.take topK (sortS (fun a b => decide (b.combined < a.combined))
          (rrfEntries config (buildRankMap (v.map (·.id)))
            (buildRankMap (b.map (·.doc_id)))
            (sortUniq ((buildRankMap (v.map (·.id))).map (·.1) ++
              (buildRankMap (b.map (·.doc_id))).map (·.1)))))).length :=
          List.length_filterMap_le _ _
      _ ≤ topK := List.length_take_le _ _

/-! ## Claim theorem for `add_source` -/

/-- C6: the first `add_source` call on content whose hash is not yet stored
returns `is_duplicate = false`; afterwards, any call with content of the
same hash (in particular the same content) leaves the sources table
untouched and returns the original id with `is_duplicate = true`. -/
theorem c6_add_source_idempotent (hash : Str → Str)
    (sources : List SourceRow) (content : Str) (metadata : Option Str)
    (hfresh : ∀ r ∈ sources, ¬ r.content_hash = hash content) :
    (add_source hash sources content metadata).2.is_duplicate = false ∧
    ∀ (content' : Str) (metadata' : Option Str),
      hash content' = hash content →
      (add_source hash (add_source hash sources content metadata).1 content'
          metadata').1 =
        (add_source hash sources content metadata).1 ∧
      (add_source hash (add_source hash sources content metadata).1 content'
          metadata').2.is_duplicate = true ∧
      (add_source hash (add_source hash sources content metadata).1 content'
          metadata').2.source_id =
        (add_source hash sources content metadata).2.source_id := by
  have hfind : sources.find? (fun r => r.content_hash = hash content)
      = none := by
    rw [List.find?_eq_none]
    intro r hr
    simpa using hfresh r hr
  have hfirst : add_source hash sources content metadata =
      (sources ++
        [{ id := nextRowId sources
           content := content
           content_hash := hash content
           metadata := metadata }],
        { source_id := nextRowId sources, is_duplicate := false,
          chunk_count := 0, message := "Source created".toList }) := by
    rw [add_source, hfind]
    rfl
  refine ⟨by rw [hfirst], ?_⟩
  intro content' metadata' hsamehash
  have hfind2 :
      ((sources ++
          [{ id := nextRowId sources
             content := content
             content_hash := hash content
             metadata := metadata }] : List SourceRow).find?
        (fun r => r.content_hash = hash content')) =
      some { id := nextRowId sources
             content := content
             content_hash := hash content
             metadata := metadata } := by
    rw [List.find?_append]
    have h1 : sources.find? (fun r => r.content_hash = hash content')
        = none := by
      rw [hsamehash, hfind]
    rw [h1, Option.none_or]
    apply List.find?_cons_of_pos
    simp [hsamehash]
  constructor
  · rw [hfirst, add_source, hfind2]
    rfl
  constructor
  · rw [hfirst, add_source, hfind2]
    rfl
  · rw [hfirst, add_source, hfind2]
    rfl

/-- Entry keys after `bumpWith` come from the old keys or are the bumped
key. -/
theorem mem_entry_bumpWith [DecidableEq κ] (f : β → β) (d : β)
    (l : List (κ × β)) (k : κ) :
    ∀ p ∈ bumpWith f d l k, p.1 ∈ l.map (·.1) ∨ p.1 = k := by
  induction l with
  | nil =>
    intro p hp
    rcases List.mem_singleton.mp hp with rfl
    exact Or.inr rfl
  | cons q rest ih =>
    intro p hp
    obtain ⟨k0, v⟩ := q
    by_cases h : k0 = k
    · subst h
      simp only [bumpWith, if_pos rfl] at hp
      rcases List.mem_cons.mp hp with rfl | hp'
      · exact Or.inl (by simp)
      · exact Or.inl (by
          simp only [List.map_cons, List.mem_cons]
          exact Or.inr (List.mem_map.mpr ⟨p, hp', rfl⟩))
    · simp only [bumpWith, if_neg h] at hp
      rcases List.mem_cons.mp hp with rfl | hp'
      · exact Or.inl (by simp)
      · rcases ih p hp' with h1 | h1
        · exact Or.inl (by
            simp only [List.map_cons, List.mem_cons]
            exact Or.inr h1)
        · exact Or.inr h1

/-- One exact-scan step only adds candidates and statistics keyed by the
scanned row's id. -/
theorem scopedScanStep_mem (tk : Bm25Tok) (sqrtq : ℚ → ℚ)
    (f32dec : Nat → Nat → Nat → Nat → ℚ) (qe : List ℚ) (qt : List Str)
    (st : ScopedScan) (row : ChunkRow) (st1 : ScopedScan)
    (h : scopedScanStep tk sqrtq f32dec qe qt st row = some st1) :
    (∀ v ∈ st1.vector_results, v ∈ st.vector_results ∨ v.id = row.id) ∧
    (∀ p ∈ st1.scoped_term_freqs,
      p.1 ∈ st.scoped_term_freqs.map (·.1) ∨ p.1 = row.id) := by
  rw [scopedScanStep] at h
  rcases Option.map_eq_some'.mp h with ⟨emb, _, rfl⟩
  constructor
  · intro v hv
    simp only [apply_ite (fun s : ScopedScan => s.vector_results),
      ite_self] at hv
    by_cases hdim : emb.length = qe.length
    · rw [if_pos hdim] at hv
      simp only [List.mem_append, List.mem_singleton] at hv
      rcases hv with hv | hv
      · exact Or.inl hv
      · subst hv; exact Or.inr rfl
    · rw [if_neg hdim] at hv
      exact Or.inl hv
  · intro p hp
    simp only [apply_ite (fun s : ScopedScan => s.scoped_term_freqs),
      ite_self] at hp
    by_cases htok : (!qt.isEmpty) = true
    · rw [if_pos htok] at hp
      by_cases hlen : 0 < (tokenizeForBm25 tk row.content).length
      · rw [if_pos hlen] at hp
        rcases mem_entry_bumpWith _ _ _ _ p hp with h1 | h1
        · exact Or.inl h1
        · exact Or.inr h1
      · rw [if_neg hlen] at hp
        exact Or.inl (List.mem_map.mpr ⟨p, hp, rfl⟩)
    · rw [if_neg htok] at hp
      exact Or.inl (List.mem_map.mpr ⟨p, hp, rfl⟩)

/-- Folding `Option.bind` from `none` stays `none`. -/
theorem foldl_bind_none (f : β → γ → Option β) (l : List γ) :
    l.foldl (fun acc x => acc.bind (fun s => f s x)) none = none := by
  induction l with
  | nil => rfl
  | cons x rest ih => simpa using ih

/-- Every vector candidate and every scoped-statistics key produced by the
exact scan is the id of a scanned row. -/
theorem scopedScan_mem (tk : Bm25Tok) (sqrtq : ℚ → ℚ)
    (f32dec : Nat → Nat → Nat → Nat → ℚ) (qe : List ℚ) (qt : List Str)
    (rows : List ChunkRow) (st : ScopedScan)
    (h : scopedScan tk sqrtq f32dec qe qt rows = some st) :
    (∀ v ∈ st.vector_results, v.id ∈ rows.map (·.id)) ∧
    (∀ p ∈ st.scoped_term_freqs, p.1 ∈ rows.map (·.id)) := by
  rw [scopedScan] at h
  have main : ∀ (rows : List ChunkRow) (st0 st : ScopedScan),
      rows.foldl
        (fun acc row =>
          acc.bind fun s => scopedScanStep tk sqrtq f32dec qe qt s row)
        (some st0) = some st →
      (∀ v ∈ st.vector_results,
        v ∈ st0.vector_results ∨ v.id ∈ rows.map (·.id)) ∧
      (∀ p ∈ st.scoped_term_freqs,
        p.1 ∈ st0.scoped_term_freqs.map (·.1) ∨ p.1 ∈ rows.map (·.id)) := by
    intro rows
    induction rows with
    | nil =>
      intro st0 st h'
      simp only [List.foldl_nil, Option.some.injEq] at h'
      subst h'
      exact ⟨fun v hv => Or.inl hv,
        fun p hp => Or.inl (List.mem_map.mpr ⟨p, hp, rfl⟩)⟩
    | cons row rest ih =>
      intro st0 st h'
      simp only [List.foldl_cons, Option.some_bind] at h'
      rcases hstep : scopedScanStep tk sqrtq f32dec qe qt st0 row
        with _ | st1
      · rw [hstep] at h'
        rw [foldl_bind_none] at h'
        cases h'
      · rw [hstep] at h'
        obtain ⟨hv1, hp1⟩ := scopedScanStep_mem tk sqrtq f32dec qe qt st0
          row st1 hstep
        obtain ⟨hv2, hp2⟩ := ih st1 st h'
        constructor
        · intro v hv
          rcases hv2 v hv with hv' | hv'
          · rcases hv1 v hv' with hv'' | hv''
            · exact Or.inl hv''
            · exact Or.inr (by
                simp only [List.map_cons, List.mem_cons]
                exact Or.inl hv'')
          · exact Or.inr (by
              simp only [List.map_cons, List.mem_cons]
              exact Or.inr hv')
        · intro p hp
          rcases hp2 p hp with hp' | hp'
          · rcases List.mem_map.mp hp' with ⟨p0, hp0, hkey⟩
            rcases hp1 p0 hp0 with hp'' | hp''
            · exact Or.inl (hkey ▸ hp'')
            · exact Or.inr (by
                simp only [List.map_cons, List.mem_cons]
                exact Or.inl (hkey ▸ hp''))
          · exact Or.inr (by
              simp only [List.map_cons, List.mem_cons]
              exact Or.inr hp')
  obtain ⟨h1, h2⟩ := main rows ScopedScan.init st h
  constructor
  · intro v hv
    rcases h1 v hv with hv' | hv'
    · cases hv'
    · exact hv'
  · intro p hp
    rcases h2 p hp with hp' | hp'
    · simp [ScopedScan.init] at hp'
    · exact hp'

/-- Every scoped BM25 score is keyed by a scoped-statistics key. -/
theorem scopedBm25Scores_mem (lnq : ℚ → ℚ) (qt : List Str) (avg : ℚ)
    (st : ScopedScan) :
    ∀ r ∈ scopedBm25Scores lnq qt avg st,
      r.doc_id ∈ st.scoped_term_freqs.map (·.1) := by
  rw [scopedBm25Scores]
  have main : ∀ (l : List (Int × List (Str × Nat)))
      (acc : List Bm25SearchResult)
      (step : List Bm25SearchResult → Int × List (Str × Nat) →
        List Bm25SearchResult),
      (∀ acc' p, step acc' p = acc' ∨
        ∃ s, step acc' p = acc' ++ [s] ∧ s.doc_id = p.1) →
      ∀ r ∈ l.foldl step acc,
        r ∈ acc ∨ r.doc_id ∈ l.map (·.1) := by
    intro l
    induction l with
    | nil => intro acc step _ r hr; exact Or.inl hr
    | cons p rest ih =>
      intro acc step hstep r hr
      simp only [List.foldl_cons] at hr
      rcases ih (step acc p) step hstep r hr with hr' | hr'
      · rcases hstep acc p with heq | ⟨s, heq, hs⟩
        · rw [heq] at hr'
          exact Or.inl hr'
        · rw [heq] at hr'
          rcases List.mem_append.mp hr' with h1 | h1
          · exact Or.inl h1
          · rcases List.mem_singleton.mp h1 with rfl
            exact Or.inr (by
              simp only [List.map_cons, List.mem_cons]
              exact Or.inl hs)
      · exact Or.inr (by
          simp only [List.map_cons, List.mem_cons]
          exact Or.inr hr')
  intro r hr
  have hstep : ∀ (acc' : List Bm25SearchResult)
      (p : Int × List (Str × Nat)),
      (fun (acc : List Bm25SearchResult) (p : Int × List (Str × Nat)) =>
        match alistLookup st.scoped_doc_lengths p.1 with
        | none => acc
        | some docLen =>
          let score :=
            qt.foldl
              (fun score token =>
                match (alistLookup p.2 token : Option Nat) with
                | none => score
                | some tf =>
                  match (alistLookup st.scoped_doc_freqs token : Option Nat)
                    with
                  | none => score
                  | some df =>
                    let n : ℚ := df
                    let idf :=
                      lnq (((st.scoped_doc_count : ℚ) - n + 1 / 2) /
                        (n + 1 / 2) + 1)
                    let tfF : ℚ := tf
                    let docLenF : ℚ := docLen
                    let tfComponent :=
                      tfF * (bm25K1 + 1) /
                        (tfF + bm25K1 *
                          (1 - bm25B + bm25B * (docLenF / max avg 1)))
                    score + idf * tfComponent)
              0
          if 0 < score then acc ++ [{ doc_id := p.1, score := score }]
          else acc) acc' p = acc' ∨
      ∃ s, (fun (acc : List Bm25SearchResult)
          (p : Int × List (Str × Nat)) =>
        match alistLookup st.scoped_doc_lengths p.1 with
        | none => acc
        | some docLen =>
          let score :=
            qt.foldl
              (fun score token =>
                match (alistLookup p.2 token : Option Nat) with
                | none => score
                | some tf =>
                  match (alistLookup st.scoped_doc_freqs token : Option Nat)
                    with
                  | none => score
                  | some df =>
                    let n : ℚ := df
                    let idf :=
                      lnq (((st.scoped_doc_count : ℚ) - n + 1 / 2) /
                        (n + 1 / 2) + 1)
                    let tfF : ℚ := tf
                    let docLenF : ℚ := docLen
                    let tfComponent :=
                      tfF * (bm25K1 + 1) /
                        (tfF + bm25K1 *
                          (1 - bm25B + bm25B * (docLenF / max avg 1)))
                    score + idf * tfComponent)
              0
          if 0 < score then acc ++ [{ doc_id := p.1, score := score }]
          else acc) acc' p = acc' ++ [s] ∧ s.doc_id = p.1 := by
    intro acc' p
    rcases hdl : alistLookup st.scoped_doc_lengths p.1 with _ | docLen
    · left
      simp only [hdl]
    · simp only [hdl]
      by_cases hsc : 0 < (qt.foldl
          (fun score token =>
            match (alistLookup p.2 token : Option Nat) with
            | none => score
            | some tf =>
              match (alistLookup st.scoped_doc_freqs token : Option Nat)
                with
              | none => score
              | some df =>
                let n : ℚ := df
                let idf :=
                  lnq (((st.scoped_doc_count : ℚ) - n + 1 / 2) /
                    (n + 1 / 2) + 1)
                let tfF : ℚ := tf
                let docLenF : ℚ := docLen
                let tfComponent :=
                  tfF * (bm25K1 + 1) /
                    (tfF + bm25K1 *
                      (1 - bm25B + bm25B * (docLenF / max avg 1)))
                score + idf * tfComponent)
          0)
      · right
        exact ⟨_, by rw [if_pos hsc], rfl⟩
      · left
        rw [if_neg hsc]
  rcases main st.scoped_term_freqs [] _ hstep r hr with h1 | h1
  · cases h1
  · exact h1

/-- Rank bookkeeping of the fused, hydrated output: each recorded rank is
either the `0` sentinel (the id is absent from that side's candidate list)
or a valid 1-based position of the id in that list, and at least one side
is present. -/
theorem fuseAndHydrate_ranks (db : Db) (fin : Bool) (config : RrfConfig)
    (topK : Nat) (v : List HnswSearchResult) (b : List Bm25SearchResult) :
    ∀ r ∈ fuseAndHydrate db fin config topK v b,
      ((r.vector_rank = 0 ∧ r.doc_id ∉ v.map (·.id)) ∨
        (1 ≤ r.vector_rank ∧
          (v.map (·.id))[r.vector_rank - 1]? = some r.doc_id)) ∧
      ((r.bm25_rank = 0 ∧ r.doc_id ∉ b.map (·.doc_id)) ∨
        (1 ≤ r.bm25_rank ∧
          (b.map (·.doc_id))[r.bm25_rank - 1]? = some r.doc_id)) ∧
      ¬(r.vector_rank = 0 ∧ r.bm25_rank = 0) := by
  intro r hr
  rw [fuseAndHydrate] at hr
  rcases List.mem_filterMap.mp hr with ⟨e, he, hmap⟩
  rcases Option.map_eq_some'.mp hmap with ⟨r0, _, hr0⟩
  have he' : e ∈ rrfEntries config (buildRankMap (v.map (·.id)))
      (buildRankMap (b.map (·.doc_id)))
      (sortUniq ((buildRankMap (v.map (·.id))).map (·.1) ++
        (buildRankMap (b.map (·.doc_id))).map (·.1))) := by
    have h1 := (List.take_sublist topK _).mem he
    exact (mem_sortS _ _ _).mp h1
  rw [rrfEntries] at he'
  rcases List.mem_map.mp he' with ⟨docId, hid, hfe⟩
  have hvr : r.vector_rank = e.vec_rank := by rw [← hr0]
  have hbr : r.bm25_rank = e.bm25_rank := by rw [← hr0]
  have hdoc : r.doc_id = e.doc_id := by rw [← hr0]
  have hevec : e.vec_rank =
      (alistLookup (buildRankMap (v.map (·.id))) docId).getD 0 := by
    rw [← hfe]
  have hebm : e.bm25_rank =
      (alistLookup (buildRankMap (b.map (·.doc_id))) docId).getD 0 := by
    rw [← hfe]
  have hedoc : e.doc_id = docId := by rw [← hfe]
  refine ⟨?_, ?_, ?_⟩
  · rcases hlv : alistLookup (buildRankMap (v.map (·.id))) docId with _ | rk
    · left
      refine ⟨by rw [hvr, hevec, hlv]; rfl, ?_⟩
      rw [hdoc, hedoc]
      intro hmem
      exact ((alistLookup_eq_none_iff _ _).mp hlv)
        ((mem_keys_buildRankMap _ _).mpr hmem)
    · right
      obtain ⟨h1, h2⟩ := lookup_buildRankMap _ _ _ hlv
      refine ⟨by rw [hvr, hevec, hlv]; exact h1, ?_⟩
      rw [hvr, hevec, hlv, hdoc, hedoc]
      exact h2
  · rcases hlb : alistLookup (buildRankMap (b.map (·.doc_id))) docId
      with _ | rk
    · left
      refine ⟨by rw [hbr, hebm, hlb]; rfl, ?_⟩
      rw [hdoc, hedoc]
      intro hmem
      exact ((alistLookup_eq_none_iff _ _).mp hlb)
        ((mem_keys_buildRankMap _ _).mpr hmem)
    · right
      obtain ⟨h1, h2⟩ := lookup_buildRankMap _ _ _ hlb
      refine ⟨by rw [hbr, hebm, hlb]; exact h1, ?_⟩
      rw [hbr, hebm, hlb, hdoc, hedoc]
      exact h2
  · intro ⟨hv0, hb0⟩
    have hid' := (mem_sortUniq _ _).mp hid
    rcases List.mem_append.mp hid' with hmem | hmem
    · rcases hlv : alistLookup (buildRankMap (v.map (·.id))) docId
        with _ | rk
      · exact ((alistLookup_eq_none_iff _ _).mp hlv) hmem
      · obtain ⟨h1, _⟩ := lookup_buildRankMap _ _ _ hlv
        rw [hvr, hevec, hlv] at hv0
        simp only [Option.getD_some] at hv0
        omega
    · rcases hlb : alistLookup (buildRankMap (b.map (·.doc_id))) docId
        with _ | rk
      · exact ((alistLookup_eq_none_iff _ _).mp hlb) hmem
      · obtain ⟨h1, _⟩ := lookup_buildRankMap _ _ _ hlb
        rw [hbr, hebm, hlb] at hb0
        simp only [Option.getD_some] at hb0
        omega

/-- With a non-empty `source_ids` filter, the candidate stage is the scoped
exact scan. -/
theorem hybridCandidates_scoped (tk : Bm25Tok) (sqrtq : ℚ → ℚ)
    (f32dec : Nat → Nat → Nat → Nat → ℚ) (lnq : ℚ → ℚ) (db : Db)
    (vecGlobal : List HnswSearchResult) (bmGlobal : List Bm25SearchResult)
    (likeFn : Str → Str → Bool) (queryText : Str) (queryEmbedding : List ℚ)
    (topK : Nat) (sids : List Int) (ml : Option Str)
    (hempty : sids.isEmpty = false) :
    hybridCandidates tk sqrtq f32dec lnq db vecGlobal bmGlobal likeFn
      queryText queryEmbedding topK
      (some { source_ids := some sids, metadata_like := ml }) =
      (scopedScan tk sqrtq f32dec queryEmbedding
        (tokenizeForBm25 tk queryText)
        (db.chunks.filter (fun c => sids.contains c.source_id))).map
        (fun st =>
          ((sortS (fun a b => decide (a.distance < b.distance))
            st.vector_results).take (topK * 4),
          if !(tokenizeForBm25 tk queryText).isEmpty &&
              decide (0 < st.scoped_doc_count) then
            (sortS (fun a b => decide (b.score < a.score))
              (scopedBm25Scores lnq (tokenizeForBm25 tk queryText)
                ((st.scoped_total_doc_length : ℚ) /
                  (st.scoped_doc_count : ℚ)) st)).take (topK * 4)
          else [])) := by
  simp [hybridCandidates, hempty]

/-- The exact scan panics exactly when a scanned row's BLOB length is not a
multiple of 4. -/
theorem scopedScan_eq_none_iff (tk : Bm25Tok) (sqrtq : ℚ → ℚ)
    (f32dec : Nat → Nat → Nat → Nat → ℚ) (qe : List ℚ) (qt : List Str)
    (rows : List ChunkRow) :
    scopedScan tk sqrtq f32dec qe qt rows = none ↔
      ∃ c ∈ rows, c.embedding.length % 4 ≠ 0 := by
  rw [scopedScan]
  have main : ∀ (rows : List ChunkRow) (st0 : ScopedScan),
      rows.foldl
        (fun acc row =>
          acc.bind fun st => scopedScanStep tk sqrtq f32dec qe qt st row)
        (some st0) = none ↔
      ∃ c ∈ rows, decodeEmbeddingBlob f32dec c.embedding = none := by
    intro rows
    induction rows with
    | nil => intro st0; simp
    | cons row rest ih =>
      intro st0
      simp only [List.foldl_cons, Option.some_bind]
      rcases hstep : scopedScanStep tk sqrtq f32dec qe qt st0 row
        with _ | st1
      · rw [foldl_bind_none]
        simp only [true_iff]
        rw [scopedScanStep, Option.map_eq_none'] at hstep
        exact ⟨row, List.mem_cons_self _ _, hstep⟩
      · rw [ih st1]
        constructor
        · intro ⟨c, hc, hcd⟩
          exact ⟨c, List.mem_cons_of_mem _ hc, hcd⟩
        · intro ⟨c, hc, hcd⟩
          rcases List.mem_cons.mp hc with rfl | hc'
          · rw [scopedScanStep, hcd, Option.map_none'] at hstep
            cases hstep
          · exact ⟨c, hc', hcd⟩
  rw [main]
  constructor
  · intro ⟨c, hc, hcd⟩
    exact ⟨c, hc, (decodeEmbeddingBlob_eq_none_iff f32dec c.embedding).mp hcd⟩
  · intro ⟨c, hc, hcd⟩
    exact ⟨c, hc,
      (decodeEmbeddingBlob_eq_none_iff f32dec c.embedding).mpr hcd⟩

/-- If every candidate id on both sides is the id of a chunk row whose
source is in `sids`, then (with duplicate-free chunk ids and an active
filter, so hydration bypasses the legacy table) every hydrated result's
source is in `sids`. -/
theorem fuseAndHydrate_source_ids (db : Db) (config : RrfConfig)
    (topK : Nat) (v : List HnswSearchResult) (b : List Bm25SearchResult)
    (sids : List Int) (hnodup : (db.chunks.map (·.id)).Nodup)
    (hv : ∀ x ∈ v, ∃ c ∈ db.chunks, c.id = x.id ∧ c.source_id ∈ sids)
    (hb : ∀ x ∈ b, ∃ c ∈ db.chunks, c.id = x.doc_id ∧ c.source_id ∈ sids) :
    ∀ r ∈ fuseAndHydrate db false config topK v b, r.source_id ∈ sids := by
  intro r hr
  rw [fuseAndHydrate] at hr
  rcases List.mem_filterMap.mp hr with ⟨e, he, hmap⟩
  rcases Option.map_eq_some'.mp hmap with ⟨r0, hlook, hr0⟩
  have hcl : chunksLookup db e.doc_id = some r0 := by
    simpa [contentLookup] using hlook
  rw [chunksLookup] at hcl
  rcases Option.map_eq_some'.mp hcl with ⟨c, hcfind, hcr0⟩
  have hcmem : c ∈ db.chunks := List.mem_of_find?_eq_some hcfind
  have hcid : c.id = e.doc_id := by
    have := List.find?_some hcfind
    simpa using this
  have he' : e ∈ rrfEntries config (buildRankMap (v.map (·.id)))
      (buildRankMap (b.map (·.doc_id)))
      (sortUniq ((buildRankMap (v.map (·.id))).map (·.1) ++
        (buildRankMap (b.map (·.doc_id))).map (·.1))) :=
    (mem_sortS _ _ _).mp ((List.take_sublist topK _).mem he)
  rw [rrfEntries] at he'
  rcases List.mem_map.mp he' with ⟨docId, hid, hfe⟩
  have hedoc : e.doc_id = docId := by rw [← hfe]
  have hid' := (mem_sortUniq _ _).mp hid
  have hexists : ∃ c0 ∈ db.chunks, c0.id = docId ∧ c0.source_id ∈ sids := by
    rcases List.mem_append.mp hid' with hmem | hmem
    · have := (mem_keys_buildRankMap _ _).mp hmem
      rcases List.mem_map.mp this with ⟨x, hx, hxid⟩
      rcases hv x hx with ⟨c0, hc0, hcid0, hs0⟩
      exact ⟨c0, hc0, by rw [hcid0, hxid], hs0⟩
    · have := (mem_keys_buildRankMap _ _).mp hmem
      rcases List.mem_map.mp this with ⟨x, hx, hxid⟩
      rcases hb x hx with ⟨c0, hc0, hcid0, hs0⟩
      exact ⟨c0, hc0, by rw [hcid0, hxid], hs0⟩
  rcases hexists with ⟨c0, hc0, hcid0, hs0⟩
  have hceq : c = c0 := by
    refine eq_of_mem_nodup_keys (fun x => x.id) db.chunks hnodup c c0 hcmem
      hc0 ?_
    show c.id = c0.id
    rw [hcid, hedoc, hcid0]
  have hsrc : r.source_id = c.source_id := by
    rw [← hr0]
    show r0.2.1 = c.source_id
    rw [← hcr0]
  rw [hsrc, hceq]
  exact hs0

unseal Rat.mul Rat.add Rat.inv Rat.sub in
/-- Concrete evaluation of the unfiltered hybrid path used by witnesses. -/
theorem hybridWitnessEval :
    search_hybrid asciiTok id (fun _ _ _ _ => 0) id hybridWitnessDb
        [{ id := 1, distance := 0 }, { id := 2, distance := 1 }]
        [{ doc_id := 2, score := 3 }] (fun _ _ => true) ("q".toList) [1] 2
        none none = some hybridWitnessOut := by
  decide

/-! ## Claim theorems for the hybrid retriever -/

/-- C1: whenever `search_hybrid` returns (no panic), the returned candidate
order is sorted by combined RRF score descending, ties between equal
combined scores broken by chunk id ascending, and the list holds at most
`top_k` entries.  (The tie order holds because the RRF table is built over
the sorted-deduplicated id union and `sort_by` is stable.) -/
theorem c1_hybrid_output_order (tk : Bm25Tok) (sqrtq : ℚ → ℚ)
    (f32dec : Nat → Nat → Nat → Nat → ℚ) (lnq : ℚ → ℚ) (db : Db)
    (vecGlobal : List HnswSearchResult) (bmGlobal : List Bm25SearchResult)
    (likeFn : Str → Str → Bool) (queryText : Str) (queryEmbedding : List ℚ)
    (topK : Nat) (config : Option RrfConfig) (filter : Option SearchFilter)
    (out : List HybridSearchResult)
    (h : search_hybrid tk sqrtq f32dec lnq db vecGlobal bmGlobal likeFn
      queryText queryEmbedding topK config filter = some out) :
    out.Pairwise
      (fun r1 r2 =>
        r2.score < r1.score ∨
          (r2.score = r1.score ∧ r1.doc_id < r2.doc_id)) ∧
    out.length ≤ topK := by
  rw [search_hybrid] at h
  rcases Option.map_eq_some'.mp h with ⟨c, _, rfl⟩
  exact fuseAndHydrate_sorted db filter.isNone (config.getD RrfConfig.default)
    topK c.1 c.2

/-- Witness for C1: a concrete unfiltered run with overlapping vector and
BM25 candidates; the output is ordered `[2, 1]` by combined score and fits
in `top_k = 2`. -/
theorem c1_hybrid_output_order_witness :
    (search_hybrid asciiTok id (fun _ _ _ _ => 0) id hybridWitnessDb
        [{ id := 1, distance := 0 }, { id := 2, distance := 1 }]
        [{ doc_id := 2, score := 3 }] (fun _ _ => true) ("q".toList) [1] 2
        none none = some hybridWitnessOut) ∧
    (hybridWitnessOut.Pairwise
      (fun r1 r2 =>
        r2.score < r1.score ∨
          (r2.score = r1.score ∧ r1.doc_id < r2.doc_id)) ∧
    hybridWitnessOut.length ≤ 2) :=
  ⟨hybridWitnessEval,
   c1_hybrid_output_order asciiTok id (fun _ _ _ _ => 0) id hybridWitnessDb
    [{ id := 1, distance := 0 }, { id := 2, distance := 1 }]
    [{ doc_id := 2, score := 3 }] (fun _ _ => true) ("q".toList) [1] 2
    none none hybridWitnessOut hybridWitnessEval⟩

/-- C9: in every result returned by `search_hybrid`, `vector_rank` and
`bm25_rank` are 1-based positions of the chunk id in the vector and BM25
candidate lists respectively, `0` is the sentinel for an id absent from
that side's list, and no result has both ranks `0`. -/
theorem c9_rank_semantics (tk : Bm25Tok) (sqrtq : ℚ → ℚ)
    (f32dec : Nat → Nat → Nat → Nat → ℚ) (lnq : ℚ → ℚ) (db : Db)
    (vecGlobal : List HnswSearchResult) (bmGlobal : List Bm25SearchResult)
    (likeFn : Str → Str → Bool) (queryText : Str) (queryEmbedding : List ℚ)
    (topK : Nat) (config : Option RrfConfig) (filter : Option SearchFilter)
    (vecL : List HnswSearchResult) (bmL : List Bm25SearchResult)
    (out : List HybridSearchResult)
    (hc : hybridCandidates tk sqrtq f32dec lnq db vecGlobal bmGlobal likeFn
      queryText queryEmbedding topK filter = some (vecL, bmL))
    (ho : search_hybrid tk sqrtq f32dec lnq db vecGlobal bmGlobal likeFn
      queryText queryEmbedding topK config filter = some out) :
    ∀ r ∈ out,
      ((r.vector_rank = 0 ∧ r.doc_id ∉ vecL.map (·.id)) ∨
        (1 ≤ r.vector_rank ∧
          (vecL.map (·.id))[r.vector_rank - 1]? = some r.doc_id)) ∧
      ((r.bm25_rank = 0 ∧ r.doc_id ∉ bmL.map (·.doc_id)) ∨
        (1 ≤ r.bm25_rank ∧
          (bmL.map (·.doc_id))[r.bm25_rank - 1]? = some r.doc_id)) ∧
      ¬(r.vector_rank = 0 ∧ r.bm25_rank = 0) := by
  rw [search_hybrid, hc, Option.map_some', Option.some.injEq] at ho
  subst ho
  exact fuseAndHydrate_ranks db filter.isNone
    (config.getD RrfConfig.default) topK vecL bmL

/-- C2: for every call to `search_hybrid` with a filter carrying a
non-empty `source_ids` list (and the chunks table's primary-key invariant),
every returned result's `source_id` is a member of that list. -/
theorem c2_source_filter_respected (tk : Bm25Tok) (sqrtq : ℚ → ℚ)
    (f32dec : Nat → Nat → Nat → Nat → ℚ) (lnq : ℚ → ℚ) (db : Db)
    (vecGlobal : List HnswSearchResult) (bmGlobal : List Bm25SearchResult)
    (likeFn : Str → Str → Bool) (queryText : Str) (queryEmbedding : List ℚ)
    (topK : Nat) (config : Option RrfConfig) (sids : List Int)
    (ml : Option Str) (out : List HybridSearchResult) (hne : sids ≠ [])
    (hnodup : (db.chunks.map (·.id)).Nodup)
    (ho : search_hybrid tk sqrtq f32dec lnq db vecGlobal bmGlobal likeFn
      queryText queryEmbedding topK config
      (some { source_ids := some sids, metadata_like := ml }) = some out) :
    ∀ r ∈ out, r.source_id ∈ sids := by
  have hempty : sids.isEmpty = false := by
    cases sids with
    | nil => exact absurd rfl hne
    | cons a l => rfl
  have hcand : hybridCandidates tk sqrtq f32dec lnq db vecGlobal bmGlobal
      likeFn queryText queryEmbedding topK
      (some { source_ids := some sids, metadata_like := ml }) =
      (scopedScan tk sqrtq f32dec queryEmbedding
        (tokenizeForBm25 tk queryText)
        (db.chunks.filter (fun c => sids.contains c.source_id))).map
        (fun st =>
          ((sortS (fun a b => decide (a.distance < b.distance))
            st.vector_results).take (topK * 4),
          if !(tokenizeForBm25 tk queryText).isEmpty &&
              decide (0 < st.scoped_doc_count) then
            (sortS (fun a b => decide (b.score < a.score))
              (scopedBm25Scores lnq (tokenizeForBm25 tk queryText)
                ((st.scoped_total_doc_length : ℚ) /
                  (st.scoped_doc_count : ℚ)) st)).take (topK * 4)
          else [])) := by
    simp [hybridCandidates, hempty]
  rw [search_hybrid, hcand] at ho
  rcases Option.map_eq_some'.mp ho with ⟨c, hc, rfl⟩
  rcases Option.map_eq_some'.mp hc with ⟨st, hscan, rfl⟩
  obtain ⟨hvm, hpm⟩ := scopedScan_mem tk sqrtq f32dec queryEmbedding
    (tokenizeForBm25 tk queryText)
    (db.chunks.filter (fun c => sids.contains c.source_id)) st hscan
  have hrowmem : ∀ idv : Int,
      idv ∈ (db.chunks.filter
        (fun c => sids.contains c.source_id)).map (·.id) →
      ∃ c0 ∈ db.chunks, c0.id = idv ∧ c0.source_id ∈ sids := by
    intro idv hidv
    rcases List.mem_map.mp hidv with ⟨c0, hc0, hc0id⟩
    rcases List.mem_filter.mp hc0 with ⟨hc0mem, hc0f⟩
    exact ⟨c0, hc0mem, hc0id,
      List.mem_of_elem_eq_true (by simpa using hc0f)⟩
  refine fuseAndHydrate_source_ids db (config.getD RrfConfig.default) topK
    _ _ sids hnodup ?_ ?_
  · intro x hx
    have hx' : x ∈ st.vector_results :=
      (mem_sortS _ _ _).mp ((List.take_sublist _ _).mem hx)
    exact hrowmem x.id (hvm x hx')
  · intro x hx
    by_cases hguard : (!(tokenizeForBm25 tk queryText).isEmpty &&
        decide (0 < st.scoped_doc_count)) = true
    · rw [if_pos hguard] at hx
      have hx' : x ∈ scopedBm25Scores lnq (tokenizeForBm25 tk queryText)
          ((st.scoped_total_doc_length : ℚ) / (st.scoped_doc_count : ℚ))
          st :=
        (mem_sortS _ _ _).mp ((List.take_sublist _ _).mem hx)
      have := scopedBm25Scores_mem lnq (tokenizeForBm25 tk queryText)
        ((st.scoped_total_doc_length : ℚ) / (st.scoped_doc_count : ℚ)) st
        x hx'
      rcases List.mem_map.mp this with ⟨p, hp, hpk⟩
      exact hrowmem x.doc_id (hpk ▸ hpm p hp)
    · rw [if_neg hguard] at hx
      cases hx

/-- Witness for C9, on the top result of the concrete unfiltered run of
`hybridWitnessDb` (both ranks positive and pointing back at doc 2). -/
theorem c9_rank_semantics_witness :
    ((c9WitnessRes.vector_rank = 0 ∧
        c9WitnessRes.doc_id ∉ ([{ id := 1, distance := 0 },
          { id := 2, distance := 1 }] : List HnswSearchResult).map
          (·.id)) ∨
      (1 ≤ c9WitnessRes.vector_rank ∧
        (([{ id := 1, distance := 0 },
          { id := 2, distance := 1 }] : List HnswSearchResult).map
          (·.id))[c9WitnessRes.vector_rank - 1]? =
          some c9WitnessRes.doc_id)) ∧
    ((c9WitnessRes.bm25_rank = 0 ∧
        c9WitnessRes.doc_id ∉ ([{ doc_id := 2, score := 3 }] :
          List Bm25SearchResult).map (·.doc_id)) ∨
      (1 ≤ c9WitnessRes.bm25_rank ∧
        (([{ doc_id := 2, score := 3 }] :
          List Bm25SearchResult).map (·.doc_id))[c9WitnessRes.bm25_rank
            - 1]? = some c9WitnessRes.doc_id)) ∧
    ¬(c9WitnessRes.vector_rank = 0 ∧ c9WitnessRes.bm25_rank = 0) :=
  c9_rank_semantics asciiTok id (fun _ _ _ _ => 0) id hybridWitnessDb
    [{ id := 1, distance := 0 }, { id := 2, distance := 1 }]
    [{ doc_id := 2, score := 3 }] (fun _ _ => true) ("q".toList) [1] 2
    none none
    [{ id := 1, distance := 0 }, { id := 2, distance := 1 }]
    [{ doc_id := 2, score := 3 }] hybridWitnessOut rfl hybridWitnessEval
    c9WitnessRes (List.mem_cons_self _ _)

/-- Witness for C6: on an empty table, adding `"abc"` is fresh, and a second
add of the same content is a no-op returning the same id as a duplicate. -/
theorem c6_add_source_idempotent_witness :
    (add_source (fun s => s) [] ("abc".toList) none).2.is_duplicate =
      false ∧
    (add_source (fun s => s)
        (add_source (fun s => s) [] ("abc".toList) none).1 ("abc".toList)
        none).1 =
      (add_source (fun s => s) [] ("abc".toList) none).1 ∧
    (add_source (fun s => s)
        (add_source (fun s => s) [] ("abc".toList) none).1 ("abc".toList)
        none).2.is_duplicate = true ∧
    (add_source (fun s => s)
        (add_source (fun s => s) [] ("abc".toList) none).1 ("abc".toList)
        none).2.source_id =
      (add_source (fun s => s) [] ("abc".toList) none).2.source_id := by
  have h := c6_add_source_idempotent (fun s => s) [] ("abc".toList) none
    (by intro r hr; cases hr)
  exact ⟨h.1, h.2 ("abc".toList) none rfl⟩

unseal Rat.mul Rat.add Rat.inv Rat.sub in
/-- Concrete evaluation of the scoped hybrid path on `c2WitnessDb`. -/
theorem c2WitnessEval :
    search_hybrid asciiTok id sampleF32Dec id c2WitnessDb [] []
        (fun _ _ => true) ("cat".toList) [0, 1] 2 none
        (some { source_ids := some [1], metadata_like := none }) =
      some c2WitnessOut := by
  decide

/-- Witness for C2: a filtered run over `c2WitnessDb` scoped to source 1;
both returned results carry `source_id = 1` even though chunk 201 of
source 2 holds identical content and embedding. -/
theorem c2_source_filter_respected_witness :
    (search_hybrid asciiTok id sampleF32Dec id c2WitnessDb [] []
        (fun _ _ => true) ("cat".toList) [0, 1] 2 none
        (some { source_ids := some [1], metadata_like := none }) =
      some c2WitnessOut) ∧
    ∀ r ∈ c2WitnessOut, r.source_id ∈ [1] :=
  ⟨c2WitnessEval,
   c2_source_filter_respected asciiTok id sampleF32Dec id c2WitnessDb [] []
    (fun _ _ => true) ("cat".toList) [0, 1] 2 none [1] none c2WitnessOut
    (by decide) (by decide) c2WitnessEval⟩

/-- Counterexample to C3: a stored BLOB of 5 bytes (one whole `f32` group
and a 1-byte partial tail).  Both the linear scan and the source-filtered
exact scan of the hybrid path hit `try_into().unwrap()` on the tail and
panic (`none`); the candidate is not silently dropped and no result
reaches the caller. -/
theorem c3_counterexample_partial_tail_panics :
    search_chunks_linear id sampleF32Dec badBlobDb [0] 5 = none ∧
    search_hybrid asciiTok id sampleF32Dec id badBlobDb [] []
        (fun _ _ => true) ("apple".toList) [0] 5 none
        (some { source_ids := some [1], metadata_like := none }) = none := by
  constructor
  · decide
  · decide

/-- C3 (amended): retrieval-time decoding uses `.chunks(4)` with
`try_into().unwrap()`, so a BLOB whose length is not a multiple of 4 makes
the whole call panic rather than drop the candidate: `search_chunks_linear`
panics exactly when some scanned chunk has such a BLOB, and the
source-filtered exact scan of `search_hybrid` panics whenever a chunk of a
filtered source does.  (Only `rebuild_chunk_hnsw_index` uses
`chunks_exact`, which drops the tail silently.) -/
theorem c3_partial_tail_panics (sqrtq : ℚ → ℚ)
    (f32dec : Nat → Nat → Nat → Nat → ℚ) (db : Db)
    (queryEmbedding : List ℚ) (topK : Nat) :
    (search_chunks_linear sqrtq f32dec db queryEmbedding topK = none ↔
      ∃ c ∈ db.chunks, c.embedding.length % 4 ≠ 0) ∧
    (∀ (tk : Bm25Tok) (lnq : ℚ → ℚ) (vecGlobal : List HnswSearchResult)
      (bmGlobal : List Bm25SearchResult) (likeFn : Str → Str → Bool)
      (queryText : Str) (config : Option RrfConfig) (sids : List Int)
      (ml : Option Str),
      sids ≠ [] →
      (∃ c ∈ db.chunks, sids.contains c.source_id ∧
        c.embedding.length % 4 ≠ 0) →
      search_hybrid tk sqrtq f32dec lnq db vecGlobal bmGlobal likeFn
        queryText queryEmbedding topK config
        (some { source_ids := some sids, metadata_like := ml }) = none) := by
  constructor
  · exact search_chunks_linear_none_iff sqrtq f32dec db queryEmbedding topK
  · intro tk lnq vecGlobal bmGlobal likeFn queryText config sids ml hne hbad
    have hempty : sids.isEmpty = false := by
      cases sids with
      | nil => exact absurd rfl hne
      | cons a l => rfl
    rcases hbad with ⟨c, hc, hcs, hcb⟩
    have hscan : scopedScan tk sqrtq f32dec queryEmbedding
        (tokenizeForBm25 tk queryText)
        (db.chunks.filter (fun c => sids.contains c.source_id)) = none :=
      (scopedScan_eq_none_iff tk sqrtq f32dec queryEmbedding
        (tokenizeForBm25 tk queryText) _).mpr
        ⟨c, List.mem_filter.mpr ⟨hc, by simpa using hcs⟩, hcb⟩
    rw [search_hybrid,
      hybridCandidates_scoped tk sqrtq f32dec lnq db vecGlobal bmGlobal
        likeFn queryText queryEmbedding topK sids ml hempty,
      hscan]
    rfl

/-- Witness for C3 (amended), at `badBlobDb`: the 5-byte BLOB satisfies the
length condition, and both retrieval paths return the panic value. -/
theorem c3_partial_tail_panics_witness :
    search_chunks_linear id sampleF32Dec badBlobDb [0] 5 = none ∧
    search_hybrid extendedTok id sampleF32Dec id badBlobDb [] []
        (fun _ _ => true) ("apple".toList) [0] 5 none
        (some { source_ids := some [1], metadata_like := none }) = none :=
  ⟨(c3_partial_tail_panics id sampleF32Dec badBlobDb [0] 5).1.mpr
      (by decide),
   (c3_partial_tail_panics id sampleF32Dec badBlobDb [0] 5).2 extendedTok
      id [] [] (fun _ _ => true) ("apple".toList) none [1] none
      (by decide) (by decide)⟩

/-! ## Lemmas and claim theorems for the markdown chunker -/

theorem pushSubs_map_content (hpath subType : Str) (b : Option Str)
    (tot : Nat) :
    ∀ (subs : List Str) (i : Nat) (idx pos : Int),
      (pushSubs hpath subType b tot i idx pos subs).map
        (fun c => c.content) = subs
  | [], _, _, _ => rfl
  | sub :: rest, i, idx, pos => by
    simp only [pushSubs, List.map_cons]
    rw [pushSubs_map_content hpath subType b tot rest (i + 1) (idx + 1)
      (pos + (utf8Length sub : Int) + 1)]

theorem pushSubs_map_batch (hpath subType : Str) (b : Option Str)
    (tot : Nat) :
    ∀ (subs : List Str) (i : Nat) (idx pos : Int),
      (pushSubs hpath subType b tot i idx pos subs).map
        (fun c => (c.batch_id, c.batch_index, c.batch_total)) =
        (List.range' i subs.length).map
          (fun (j : Nat) => (b, b.map (fun _ => (j : Int)),
            b.map (fun _ => (tot : Int))))
  | [], _, _, _ => rfl
  | sub :: rest, i, idx, pos => by
    simp only [pushSubs, List.map_cons, List.length_cons, List.range'_succ]
    rw [pushSubs_map_batch hpath subType b tot rest (i + 1) (idx + 1)
      (pos + (utf8Length sub : Int) + 1)]

theorem pushSubs_batch_none (hpath subType : Str) (tot : Nat) :
    ∀ (subs : List Str) (i : Nat) (idx pos : Int) (c : StructuredChunk),
      c ∈ pushSubs hpath subType none tot i idx pos subs →
      c.batch_id = none ∧ c.batch_index = none ∧ c.batch_total = none
  | [], _, _, _, _, h => absurd h (List.not_mem_nil _)
  | sub :: rest, i, idx, pos, c, h => by
    simp only [pushSubs] at h
    rcases List.mem_cons.mp h with rfl | h'
    · exact ⟨rfl, rfl, rfl⟩
    · exact pushSubs_batch_none hpath subType tot rest (i + 1) (idx + 1)
        (pos + (utf8Length sub : Int) + 1) c h'

/-- Every section only appends to the output chunk list. -/
theorem markdownStep_chunks_append (uuidGen : Nat → Str)
    (tsplit : Nat → Str → List Str) (maxChars : Nat) (st : MdState)
    (sec : MdSection) :
    ∃ ext, (markdownStep uuidGen tsplit maxChars st sec).chunks =
      st.chunks ++ ext := by
  simp only [markdownStep]
  split
  · exact ⟨[], (List.append_nil _).symm⟩
  · split
    · exact ⟨_, rfl⟩
    · exact ⟨_, rfl⟩

theorem foldl_markdownStep_chunks_append (uuidGen : Nat → Str)
    (tsplit : Nat → Str → List Str) (maxChars : Nat) :
    ∀ (l : List MdSection) (st : MdState),
      ∃ ext, (l.foldl (markdownStep uuidGen tsplit maxChars) st).chunks =
        st.chunks ++ ext
  | [], st => ⟨[], (List.append_nil _).symm⟩
  | sec :: rest, st => by
    rw [List.foldl_cons]
    obtain ⟨e1, h1⟩ :=
      markdownStep_chunks_append uuidGen tsplit maxChars st sec
    obtain ⟨e2, h2⟩ := foldl_markdownStep_chunks_append uuidGen tsplit
      maxChars rest (markdownStep uuidGen tsplit maxChars st sec)
    exact ⟨e1 ++ e2, by rw [h2, h1, List.append_assoc]⟩

/-- An oversized code-block section with at least 2 fragments: the step
appends one chunk per `split_by_lines` fragment, all carrying the same
fresh batch id, indices `0..n-1` and total `n`. -/
theorem markdownStep_code_split (uuidGen : Nat → Str)
    (tsplit : Nat → Str → List Str) (maxChars : Nat) (st : MdState)
    (sec : MdSection) (hcode : sec.is_code_block = true)
    (hnt : sec.is_table = false)
    (hbig : maxChars < utf8Length (rustTrim sec.content))
    (h2 : 2 ≤ (split_by_lines tsplit (rustTrim sec.content)
      maxChars).length) :
    ∃ newChunks,
      (markdownStep uuidGen tsplit maxChars st sec).chunks =
        st.chunks ++ newChunks ∧
      newChunks.map (fun c => c.content) =
        split_by_lines tsplit (rustTrim sec.content) maxChars ∧
      newChunks.map (fun c => (c.batch_id, c.batch_index, c.batch_total)) =
        (List.range (split_by_lines tsplit (rustTrim sec.content)
          maxChars).length).map
          (fun (i : Nat) => (some (uuidGen st.batch_counter),
            some (i : Int),
            some ((split_by_lines tsplit (rustTrim sec.content)
              maxChars).length : Int))) := by
  have hne : ¬(rustTrim sec.content = []) := by
    intro h
    rw [h] at hbig
    simp [utf8Length] at hbig
  have hnotle : ¬(utf8Length (rustTrim sec.content) ≤ maxChars) := by omega
  have h1 : 1 < (split_by_lines tsplit (rustTrim sec.content)
      maxChars).length := by omega
  have hsubs : (if sec.is_table = true then
      split_table_preserving_headers tsplit (rustTrim sec.content) maxChars
    else if sec.is_code_block = true then
      split_by_lines tsplit (rustTrim sec.content) maxChars
    else recursive_split tsplit (rustTrim sec.content) maxChars) =
      split_by_lines tsplit (rustTrim sec.content) maxChars := by
    rw [hnt, hcode, if_neg Bool.false_ne_true, if_pos rfl]
  simp only [markdownStep]
  rw [if_neg hne, if_neg hnotle, hsubs,
    if_pos (⟨hcode, h1⟩ : sec.is_code_block = true ∧
      1 < (split_by_lines tsplit (rustTrim sec.content) maxChars).length)]
  refine ⟨_, rfl, pushSubs_map_content _ _ _ _ _ _ _ _, ?_⟩
  rw [pushSubs_map_batch, List.range_eq_range']
  simp only [Option.map_some']

/-- An oversized table section: the step appends one chunk per
`split_table_preserving_headers` fragment and all batch fields stay
`none`. -/
theorem markdownStep_table_split (uuidGen : Nat → Str)
    (tsplit : Nat → Str → List Str) (maxChars : Nat) (st : MdState)
    (sec : MdSection) (hcode : sec.is_code_block = false)
    (ht : sec.is_table = true)
    (hbig : maxChars < utf8Length (rustTrim sec.content)) :
    ∃ newChunks,
      (markdownStep uuidGen tsplit maxChars st sec).chunks =
        st.chunks ++ newChunks ∧
      newChunks.map (fun c => c.content) =
        split_table_preserving_headers tsplit (rustTrim sec.content)
          maxChars ∧
      ∀ c ∈ newChunks, c.batch_id = none ∧ c.batch_index = none ∧
        c.batch_total = none := by
  have hne : ¬(rustTrim sec.content = []) := by
    intro h
    rw [h] at hbig
    simp [utf8Length] at hbig
  have hnotle : ¬(utf8Length (rustTrim sec.content) ≤ maxChars) := by omega
  have hsubs : (if sec.is_table = true then
      split_table_preserving_headers tsplit (rustTrim sec.content) maxChars
    else if sec.is_code_block = true then
      split_by_lines tsplit (rustTrim sec.content) maxChars
    else recursive_split tsplit (rustTrim sec.content) maxChars) =
      split_table_preserving_headers tsplit (rustTrim sec.content)
        maxChars := by
    rw [ht, if_pos rfl]
  have hbatch : (if sec.is_code_block = true ∧
      1 < (split_table_preserving_headers tsplit (rustTrim sec.content)
        maxChars).length then
      some (uuidGen st.batch_counter) else (none : Option Str)) = none := by
    refine if_neg ?_
    rintro ⟨h1', _⟩
    rw [hcode] at h1'
    exact Bool.false_ne_true h1'
  simp only [markdownStep]
  rw [if_neg hne, if_neg hnotle, hsubs, hbatch]
  refine ⟨_, rfl, pushSubs_map_content _ _ _ _ _ _ _ _, ?_⟩
  intro c hc
  exact pushSubs_batch_none _ _ _ _ _ _ _ c hc

/-- C4: in every `markdown_chunk` run, an oversized fenced code block that
splits into at least 2 fragments yields consecutive output chunks sharing
one generated batch id with `batch_index = 0..n-1` and `batch_total = n`;
but an oversized pipe table yields fragments whose batch fields are all
`none`, refuting the claim's \"or a pipe-table\" half. -/
theorem c4_structural_batch_linking (uuidGen : Nat → Str)
    (tsplit : Nat → Str → List Str) (text : Str) (maxChars : Int)
    (pre post : List MdSection) (sec : MdSection)
    (hsplit : split_by_headers text = pre ++ sec :: post)
    (hbig : (max maxChars 100).toNat < utf8Length (rustTrim sec.content)) :
    (sec.is_code_block = true → sec.is_table = false →
      2 ≤ (split_by_lines tsplit (rustTrim sec.content)
        (max maxChars 100).toNat).length →
      ∃ cs1 newChunks cs3 u,
        markdown_chunk uuidGen tsplit text maxChars =
          cs1 ++ newChunks ++ cs3 ∧
        newChunks.map (fun c => c.content) =
          split_by_lines tsplit (rustTrim sec.content)
            (max maxChars 100).toNat ∧
        newChunks.map (fun c => (c.batch_id, c.batch_index, c.batch_total)) =
          (List.range (split_by_lines tsplit (rustTrim sec.content)
            (max maxChars 100).toNat).length).map
            (fun (i : Nat) => (some u, some (i : Int),
              some ((split_by_lines tsplit (rustTrim sec.content)
                (max maxChars 100).toNat).length : Int)))) ∧
    (sec.is_code_block = false → sec.is_table = true →
      ∃ cs1 newChunks cs3,
        markdown_chunk uuidGen tsplit text maxChars =
          cs1 ++ newChunks ++ cs3 ∧
        newChunks.map (fun c => c.content) =
          split_table_preserving_headers tsplit (rustTrim sec.content)
            (max maxChars 100).toNat ∧
        ∀ c ∈ newChunks, c.batch_id = none ∧ c.batch_index = none ∧
          c.batch_total = none) := by
  have htext : text ≠ [] := by
    intro h
    rw [h] at hsplit
    have hq : (split_by_headers [] : List MdSection) = [] := by decide
    rw [hq] at hsplit
    exact List.not_mem_nil sec (hsplit ▸ List.mem_append_right pre
      (List.mem_cons_self sec post))
  set m : Nat := (max maxChars 100).toNat with hm
  set st1 : MdState := pre.foldl (markdownStep uuidGen tsplit m)
    { chunks := [], current_pos := 0, chunk_index := 0,
      header_stack := [], batch_counter := 0 } with hst1
  have hmc : markdown_chunk uuidGen tsplit text maxChars =
      (post.foldl (markdownStep uuidGen tsplit m)
        (markdownStep uuidGen tsplit m st1 sec)).chunks := by
    rw [markdown_chunk, if_neg htext, hsplit, List.foldl_append,
      List.foldl_cons]
  constructor
  · intro hcode hnt h2
    obtain ⟨nc, hstep, hco, hba⟩ := markdownStep_code_split uuidGen tsplit
      m st1 sec hcode hnt hbig h2
    obtain ⟨e2, h2'⟩ := foldl_markdownStep_chunks_append uuidGen tsplit
      m post (markdownStep uuidGen tsplit m st1 sec)
    exact ⟨st1.chunks, nc, e2, uuidGen st1.batch_counter,
      by rw [hmc, h2', hstep], hco, hba⟩
  · intro hcode ht
    obtain ⟨nc, hstep, hco, hba⟩ := markdownStep_table_split uuidGen tsplit
      m st1 sec hcode ht hbig
    obtain ⟨e2, h2'⟩ := foldl_markdownStep_chunks_append uuidGen tsplit
      m post (markdownStep uuidGen tsplit m st1 sec)
    exact ⟨st1.chunks, nc, e2, by rw [hmc, h2', hstep], hco, hba⟩

set_option maxRecDepth 8000 in
/-- Counterexample to C4's table half: the repository's own oversized table
splits into two `"table"` fragments whose `batch_id`, `batch_index` and
`batch_total` are all `none` (the batch id is generated only for code
blocks). -/
theorem c4_counterexample_table_fragments_unlinked :
    (markdown_chunk (fun n => (toString n).toList) (fun _ _ => [])
      c4TableText 100).map
      (fun c => (c.content.length, c.chunk_type)) =
      [(89, "table".toList), (57, "table".toList)] ∧
    (markdown_chunk (fun n => (toString n).toList) (fun _ _ => [])
      c4TableText 100).map
      (fun c => (c.batch_id, c.batch_index, c.batch_total)) =
      [(none, none, none), (none, none, none)] := by
  constructor
  · decide
  · decide

set_option maxRecDepth 8000 in
/-- Witness for C4 on the repository's own test inputs: the oversized code
block yields 2 fragments sharing batch id, indices `0, 1` and total `2`;
the oversized table yields fragments with no batch metadata. -/
theorem c4_structural_batch_linking_witness :
    (2 ≤ (split_by_lines (fun _ _ => []) (rustTrim c4CodeSec.content)
        100).length ∧
      ∃ cs1 newChunks cs3 u,
        markdown_chunk (fun n => (toString n).toList) (fun _ _ => [])
          c4CodeText 100 = cs1 ++ newChunks ++ cs3 ∧
        newChunks.map (fun c => c.content) =
          split_by_lines (fun _ _ => []) (rustTrim c4CodeSec.content) 100 ∧
        newChunks.map (fun c => (c.batch_id, c.batch_index, c.batch_total)) =
          (List.range (split_by_lines (fun _ _ => [])
            (rustTrim c4CodeSec.content) 100).length).map
            (fun (i : Nat) => (some u, some (i : Int),
              some ((split_by_lines (fun _ _ => [])
                (rustTrim c4CodeSec.content) 100).length : Int)))) ∧
    (∃ cs1 newChunks cs3,
      markdown_chunk (fun n => (toString n).toList) (fun _ _ => [])
        c4TableText 100 = cs1 ++ newChunks ++ cs3 ∧
      newChunks.map (fun c => c.content) =
        split_table_preserving_headers (fun _ _ => [])
          (rustTrim c4TableSec.content) 100 ∧
      ∀ c ∈ newChunks, c.batch_id = none ∧ c.batch_index = none ∧
        c.batch_total = none) :=
  ⟨⟨by decide,
    (c4_structural_batch_linking (fun n => (toString n).toList)
      (fun _ _ => []) c4CodeText 100 [] [] c4CodeSec (by decide)
      (by decide)).1 rfl rfl (by decide)⟩,
   (c4_structural_batch_linking (fun n => (toString n).toList)
      (fun _ _ => []) c4TableText 100 [] [] c4TableSec (by decide)
      (by decide)).2 rfl rfl⟩

end MobileRag
